import Mathlib

/-!
# Verification of the stable-fast fusion-rewrite and kernel-dispatch engine

This file gives a shallow embedding of the engine described by the repository:
the operator-library registration surface (from `src/sfast/csrc/main.cpp`) and
the fusion/dispatch core (matcher, rewriter, dispatcher, kernel cache), which is
modelled from the specification, since only its registration surface is visible
in the source tree.  Theorems at the end settle the specification's claims.
-/

set_option autoImplicit false

namespace SFast

/-! ## Registration surface (from `src/sfast/csrc/main.cpp`)

`TORCH_LIBRARY(sfast, m)` runs at process load and calls, in this order:
`initCUDNNConvolutionBindings`, `initCUDNNQLinearBindings`,
`initCUBLASGEMMBindings`, `initFusedLinearBindings`. -/

/-- The four kernel-provider groups registered by the engine's operator-library
registration block. -/
inductive ProviderGroup where
  | cudnnConvolution
  | cudnnQLinear
  | cublasGemm
  | fusedLinear
  deriving DecidableEq, Repr

/-- The sequence of provider-group initializers invoked by the
`TORCH_LIBRARY(sfast, m)` block in `main.cpp`, in source order. -/
def torchLibrarySfast : List ProviderGroup :=
  [ProviderGroup.cudnnConvolution, ProviderGroup.cudnnQLinear,
   ProviderGroup.cublasGemm, ProviderGroup.fusedLinear]

/-! ## Dispatcher and kernel cache

Modelled from the spec: the Dispatcher, Kernel Registry and Kernel Cache are
part of the fusion/dispatch core whose implementation is not in the visible
source tree (only its registration surface is).  The model follows §3 and §4.4
of the spec: a `CacheKey` is the runtime signature (concrete shape, dtype,
memory layout, device identity, quantization parameters); a `KernelDescriptor`
carries the supported envelope; dispatch looks the key up in the cache, and on
a miss resolves the first registered descriptor whose envelope covers the
signature, prepares it, and inserts a `CacheEntry`. -/

/-- Modelled from the spec: a runtime call signature — concrete shapes, dtype,
memory layout, device identity, and quantization parameters (scale,
zero-point), all of which are part of the cache key (§3, §4.5). -/
structure CacheKey where
  shape : List Nat
  dtype : Nat
  layout : Nat
  device : Nat
  qscale : ℚ
  qzeroPoint : ℤ
  deriving DecidableEq, Repr

/-- Modelled from the spec: a kernel implementation's registration record — a
logical operator, its supported dtype set, supported layout set,
device-capability range, and an opaque invocation entry point (§3). -/
structure KernelDescriptor where
  dtypes : List Nat
  layouts : List Nat
  devLo : Nat
  devHi : Nat
  entry : Nat
  deriving DecidableEq, Repr

/-- A descriptor's envelope covers a runtime signature when the signature's
dtype and layout are supported and the device capability is in range. -/
def covers (d : KernelDescriptor) (k : CacheKey) : Bool :=
  (k.dtype ∈ d.dtypes) && (k.layout ∈ d.layouts) &&
    (d.devLo ≤ k.device) && (k.device ≤ d.devHi)

/-- Modelled from the spec: the resolved descriptor plus prepared execution
state; prepared state (algorithm choice, workspace sizing) is computed from the
concrete signature, so the entry records the key it was prepared for (§3). -/
structure CacheEntry where
  key : CacheKey
  desc : KernelDescriptor
  algo : Nat
  deriving DecidableEq, Repr

/-- Modelled from the spec: one-time preparation (algorithm probing, workspace
sizing) for a descriptor at a concrete signature.  Deterministic in the
descriptor and the key. -/
def prepare (d : KernelDescriptor) (k : CacheKey) : CacheEntry :=
  { key := k, desc := d, algo := d.entry + k.shape.sum }

/-- The kernel registry for one logical operator: the descriptor list in
registration order (first-registered = most-preferred). -/
abbrev Registry := List KernelDescriptor

/-- The kernel cache: an association from cache keys to cache entries. -/
abbrev Cache := List (CacheKey × CacheEntry)

/-- Cache lookup by exact key match. -/
def cacheLookup (c : Cache) (k : CacheKey) : Option CacheEntry :=
  (c.find? (fun p => p.1 = k)).map (fun p => p.2)

/-- Registry resolution: the first registered descriptor covering the
signature, prepared at that signature. -/
def resolve (reg : Registry) (k : CacheKey) : Option CacheEntry :=
  (reg.find? (fun d => covers d k)).map (fun d => prepare d k)

/-- Modelled from the spec: the Dispatcher's error condition for a runtime
signature covered by no registered kernel (§4.4, §7 taxonomy item 3). -/
inductive DispatchError where
  | unsupportedConfiguration
  deriving DecidableEq, Repr

/-- Modelled from the spec: one Dispatcher call (§4.4).  Compute the key, look
up the cache; on a hit execute the cached entry; on a miss resolve from the
registry (first-registered covering descriptor), prepare, insert, execute; if
no descriptor covers the signature, return the recoverable
unsupported-configuration condition to the caller. -/
def dispatch (reg : Registry) (c : Cache) (k : CacheKey) :
    Except DispatchError (CacheEntry × Cache) :=
  match cacheLookup c k with
  | some e => Except.ok (e, c)
  | none =>
    match resolve reg k with
    | some e => Except.ok (e, (k, e) :: c)
    | none => Except.error DispatchError.unsupportedConfiguration

/-- Cache well-formedness: every stored entry is exactly the registry's
resolution of its key.  Holds for the empty cache and is preserved by
`dispatch`. -/
def CacheWF (reg : Registry) (c : Cache) : Prop :=
  ∀ p ∈ c, resolve reg p.1 = some p.2

theorem cacheWF_nil (reg : Registry) : CacheWF reg [] := by
  intro p hp; cases hp

theorem cacheLookup_wf {reg : Registry} {c : Cache} (h : CacheWF reg c)
    {k : CacheKey} {e : CacheEntry} (hl : cacheLookup c k = some e) :
    resolve reg k = some e := by
  unfold cacheLookup at hl
  cases hfind : c.find? (fun p => p.1 = k) with
  | none => simp [hfind] at hl
  | some p =>
    simp only [hfind, Option.map_some'] at hl
    have hmem := List.mem_of_find?_eq_some hfind
    have hkey := List.find?_some hfind
    have hk : p.1 = k := by simpa using hkey
    have hres := h p hmem
    rw [hk] at hres
    rw [hres, hl]

theorem dispatch_ok_resolve {reg : Registry} {c : Cache} (h : CacheWF reg c)
    {k : CacheKey} {e : CacheEntry} {c' : Cache}
    (hd : dispatch reg c k = Except.ok (e, c')) :
    resolve reg k = some e := by
  unfold dispatch at hd
  cases hl : cacheLookup c k with
  | some e0 =>
    simp only [hl, Except.ok.injEq, Prod.mk.injEq] at hd
    rw [← hd.1]
    exact cacheLookup_wf h hl
  | none =>
    simp only [hl] at hd
    cases hr : resolve reg k with
    | some e0 =>
      simp only [hr, Except.ok.injEq, Prod.mk.injEq] at hd
      rw [← hd.1]
    | none => simp [hr] at hd

theorem resolve_key {reg : Registry} {k : CacheKey} {e : CacheEntry}
    (h : resolve reg k = some e) : e.key = k := by
  unfold resolve at h
  cases hf : reg.find? (fun d => covers d k) with
  | none => simp [hf] at h
  | some d =>
    simp only [hf, Option.map_some', Option.some.injEq] at h
    rw [← h]; rfl

theorem dispatch_preserves_wf {reg : Registry} {c : Cache} (h : CacheWF reg c)
    {k : CacheKey} {e : CacheEntry} {c' : Cache}
    (hd : dispatch reg c k = Except.ok (e, c')) : CacheWF reg c' := by
  unfold dispatch at hd
  cases hl : cacheLookup c k with
  | some e0 =>
    simp only [hl, Except.ok.injEq, Prod.mk.injEq] at hd
    rw [← hd.2]
    exact h
  | none =>
    simp only [hl] at hd
    cases hr : resolve reg k with
    | some e0 =>
      simp only [hr, Except.ok.injEq, Prod.mk.injEq] at hd
      rw [← hd.2]
      intro p hp
      rcases List.mem_cons.mp hp with hp1 | hp1
      · rw [hp1]; exact hr
      · exact h p hp1
    | none => simp [hr] at hd

/-! ## Single-flight preparation under concurrency

Modelled from the spec (§4.4, §5): concurrent first-use on the same cache key
must perform at most one preparation; later callers wait for and reuse the
first caller's result.  We model N callers on one key as an interleaved
transition system: each caller checks the cache; on a miss it either claims the
in-flight slot and prepares, or — when another caller has claimed it — waits
until the prepared entry is published, then reuses it. -/

/-- Program counter of one caller in the single-flight protocol. -/
inductive CallerPC where
  | start
  | preparing
  | waiting
  | done
  deriving DecidableEq, Repr

/-- Global state of N concurrent dispatcher calls on one cache key:
each caller's program counter, whether the in-flight (preparation claimed)
flag is set, whether the prepared entry has been published, and how many
preparations have been performed in total. -/
structure SFState (N : Nat) where
  pcs : Fin N → CallerPC
  flight : Bool
  published : Bool
  prepCount : Nat

/-- Initial state: every caller at `start`, nothing claimed or published,
zero preparations performed. -/
def sfInit (N : Nat) : SFState N :=
  { pcs := fun _ => CallerPC.start, flight := false, published := false,
    prepCount := 0 }

/-- Modelled from the spec: one interleaving step of the single-flight
protocol (§4.4 "concurrent misses on the same key must not each redo
preparation; the later ones wait for and reuse the first's result"). -/
inductive SFStep {N : Nat} : SFState N → SFState N → Prop where
  | hit (s : SFState N) (i : Fin N) :
      s.pcs i = CallerPC.start → s.published = true →
      SFStep s { s with pcs := Function.update s.pcs i CallerPC.done }
  | claim (s : SFState N) (i : Fin N) :
      s.pcs i = CallerPC.start → s.published = false → s.flight = false →
      SFStep s { s with pcs := Function.update s.pcs i CallerPC.preparing,
                        flight := true }
  | wait (s : SFState N) (i : Fin N) :
      s.pcs i = CallerPC.start → s.published = false → s.flight = true →
      SFStep s { s with pcs := Function.update s.pcs i CallerPC.waiting }
  | publish (s : SFState N) (i : Fin N) :
      s.pcs i = CallerPC.preparing →
      SFStep s { s with pcs := Function.update s.pcs i CallerPC.done,
                        published := true, prepCount := s.prepCount + 1 }
  | resume (s : SFState N) (i : Fin N) :
      s.pcs i = CallerPC.waiting → s.published = true →
      SFStep s { s with pcs := Function.update s.pcs i CallerPC.done }

/-- Reachability from the initial state by interleaved steps. -/
def SFReach {N : Nat} (s : SFState N) : Prop :=
  Relation.ReflTransGen SFStep (sfInit N) s

/-- Number of callers currently performing a preparation. -/
def numPreparing {N : Nat} (pcs : Fin N → CallerPC) : Nat :=
  (Finset.univ.filter (fun i => pcs i = CallerPC.preparing)).card

/-- The single-flight invariant: the preparation count matches the published
flag, at most one caller is ever preparing, the in-flight flag is set exactly
when a preparation is running or has been published, a waiting caller implies
the flag is set, and a finished caller implies the entry was published. -/
def SFInv {N : Nat} (s : SFState N) : Prop :=
  s.prepCount = (if s.published then 1 else 0) ∧
  numPreparing s.pcs ≤ 1 ∧
  (s.flight = true ↔ (numPreparing s.pcs = 1 ∨ s.published = true)) ∧
  (s.published = true → numPreparing s.pcs = 0) ∧
  (∀ i, s.pcs i = CallerPC.waiting → s.flight = true) ∧
  (∀ i, s.pcs i = CallerPC.done → s.published = true)

theorem numPreparing_update_eq {N : Nat} (pcs : Fin N → CallerPC) (i : Fin N)
    (c : CallerPC) (hne : c ≠ CallerPC.preparing) :
    numPreparing (Function.update pcs i c) =
      numPreparing pcs - (if pcs i = CallerPC.preparing then 1 else 0) := by
  classical
  unfold numPreparing
  by_cases hi : pcs i = CallerPC.preparing
  · simp only [hi, if_pos rfl]
    have hset :
        (Finset.univ.filter
            (fun j => Function.update pcs i c j = CallerPC.preparing)) =
          (Finset.univ.filter (fun j => pcs j = CallerPC.preparing)).erase i := by
      ext j
      by_cases hj : j = i
      · subst hj
        simp [Function.update_same, hne]
      · simp [Function.update_noteq hj, hj]
    rw [hset, Finset.card_erase_of_mem (by simp [hi])]
    simp
  · simp only [if_neg hi]
    have hset :
        (Finset.univ.filter
            (fun j => Function.update pcs i c j = CallerPC.preparing)) =
          (Finset.univ.filter (fun j => pcs j = CallerPC.preparing)) := by
      ext j
      by_cases hj : j = i
      · subst hj
        simp [Function.update_same, hne, hi]
      · simp [Function.update_noteq hj]
    rw [hset]
    simp

theorem numPreparing_update_preparing {N : Nat} (pcs : Fin N → CallerPC)
    (i : Fin N) (hi : pcs i ≠ CallerPC.preparing) :
    numPreparing (Function.update pcs i CallerPC.preparing) =
      numPreparing pcs + 1 := by
  classical
  unfold numPreparing
  have hset :
      (Finset.univ.filter
          (fun j => Function.update pcs i CallerPC.preparing j =
            CallerPC.preparing)) =
        insert i (Finset.univ.filter (fun j => pcs j = CallerPC.preparing)) := by
    ext j
    by_cases hj : j = i
    · subst hj
      simp [Function.update_same]
    · simp [Function.update_noteq hj, hj]
  rw [hset]
  rw [Finset.card_insert_of_not_mem]
  simp [hi]

theorem sfInv_init (N : Nat) : SFInv (sfInit N) := by
  classical
  have hnum : numPreparing (fun _ : Fin N => CallerPC.start) = 0 := by
    unfold numPreparing
    simp
  refine ⟨rfl, ?_, ?_, ?_, ?_, ?_⟩
  · show numPreparing (fun _ : Fin N => CallerPC.start) ≤ 1
    rw [hnum]; omega
  · constructor
    · intro h; exact absurd h (by simp [sfInit])
    · rintro (h | h)
      · have h' : numPreparing (fun _ : Fin N => CallerPC.start) = 1 := h
        rw [hnum] at h'; omega
      · exact absurd h (by simp [sfInit])
  · intro h; exact absurd h (by simp [sfInit])
  · intro i h; exact absurd h (by simp [sfInit])
  · intro i h; exact absurd h (by simp [sfInit])

theorem sfInv_step {N : Nat} {s s' : SFState N} (hinv : SFInv s)
    (hstep : SFStep s s') : SFInv s' := by
  classical
  obtain ⟨h1, h2, h3, h4, h5, h6⟩ := hinv
  cases hstep with
  | hit i hpc hpub =>
    have hnum : numPreparing (Function.update s.pcs i CallerPC.done) =
        numPreparing s.pcs := by
      rw [numPreparing_update_eq s.pcs i CallerPC.done (by simp), hpc]
      simp
    refine ⟨h1, ?_, ?_, ?_, ?_, ?_⟩
    · show numPreparing (Function.update s.pcs i CallerPC.done) ≤ 1
      rw [hnum]; exact h2
    · show s.flight = true ↔
        (numPreparing (Function.update s.pcs i CallerPC.done) = 1 ∨
          s.published = true)
      rw [hnum]; exact h3
    · intro hp
      show numPreparing (Function.update s.pcs i CallerPC.done) = 0
      rw [hnum]; exact h4 hp
    · intro j hj
      have hj' : Function.update s.pcs i CallerPC.done j = CallerPC.waiting := hj
      by_cases hji : j = i
      · subst hji
        rw [Function.update_same] at hj'
        exact absurd hj' (by simp)
      · rw [Function.update_noteq hji] at hj'
        exact h5 j hj'
    · intro j hj
      exact hpub
  | claim i hpc hpub hfl =>
    have hnum := numPreparing_update_preparing s.pcs i (by rw [hpc]; simp)
    have hzero : numPreparing s.pcs = 0 := by
      by_contra hnz
      have hone : numPreparing s.pcs = 1 := by omega
      have hfl' := h3.mpr (Or.inl hone)
      simp [hfl] at hfl'
    refine ⟨h1, ?_, ?_, ?_, ?_, ?_⟩
    · show numPreparing (Function.update s.pcs i CallerPC.preparing) ≤ 1
      rw [hnum, hzero]
    · constructor
      · intro _
        refine Or.inl ?_
        show numPreparing (Function.update s.pcs i CallerPC.preparing) = 1
        rw [hnum, hzero]
      · intro _; rfl
    · intro hp
      have hp' : s.published = true := hp
      rw [hpub] at hp'
      exact Bool.noConfusion hp'
    · intro j hj; rfl
    · intro j hj
      have hj' : Function.update s.pcs i CallerPC.preparing j = CallerPC.done := hj
      by_cases hji : j = i
      · subst hji
        rw [Function.update_same] at hj'
        exact absurd hj' (by simp)
      · rw [Function.update_noteq hji] at hj'
        exact absurd (h6 j hj') (by simp [hpub])
  | wait i hpc hpub hfl =>
    have hnum : numPreparing (Function.update s.pcs i CallerPC.waiting) =
        numPreparing s.pcs := by
      rw [numPreparing_update_eq s.pcs i CallerPC.waiting (by simp), hpc]
      simp
    refine ⟨h1, ?_, ?_, ?_, ?_, ?_⟩
    · show numPreparing (Function.update s.pcs i CallerPC.waiting) ≤ 1
      rw [hnum]; exact h2
    · show s.flight = true ↔
        (numPreparing (Function.update s.pcs i CallerPC.waiting) = 1 ∨
          s.published = true)
      rw [hnum]; exact h3
    · intro hp
      show numPreparing (Function.update s.pcs i CallerPC.waiting) = 0
      rw [hnum]; exact h4 hp
    · intro j hj; exact hfl
    · intro j hj
      have hj' : Function.update s.pcs i CallerPC.waiting j = CallerPC.done := hj
      by_cases hji : j = i
      · subst hji
        rw [Function.update_same] at hj'
        exact absurd hj' (by simp)
      · rw [Function.update_noteq hji] at hj'
        exact h6 j hj'
  | publish i hpc =>
    have hone : numPreparing s.pcs = 1 := by
      have hmem : i ∈ Finset.univ.filter
          (fun j => s.pcs j = CallerPC.preparing) := by simp [hpc]
      have hpos : 0 < (Finset.univ.filter
          (fun j => s.pcs j = CallerPC.preparing)).card :=
        Finset.card_pos.mpr ⟨i, hmem⟩
      have hle : numPreparing s.pcs ≤ 1 := h2
      unfold numPreparing at hle ⊢
      omega
    have hnpub : s.published = false := by
      cases hp : s.published with
      | false => rfl
      | true =>
        have hz := h4 hp
        rw [hone] at hz
        exact Nat.noConfusion hz
    have hnum : numPreparing (Function.update s.pcs i CallerPC.done) = 0 := by
      rw [numPreparing_update_eq s.pcs i CallerPC.done (by simp), hpc]
      simp [hone]
    refine ⟨?_, ?_, ?_, ?_, ?_, ?_⟩
    · show s.prepCount + 1 = if (true : Bool) then 1 else 0
      rw [h1, hnpub]
      simp
    · show numPreparing (Function.update s.pcs i CallerPC.done) ≤ 1
      rw [hnum]; omega
    · constructor
      · intro _; exact Or.inr rfl
      · intro _
        exact h3.mpr (Or.inl hone)
    · intro _
      show numPreparing (Function.update s.pcs i CallerPC.done) = 0
      exact hnum
    · intro j hj
      have hj' : Function.update s.pcs i CallerPC.done j = CallerPC.waiting := hj
      by_cases hji : j = i
      · subst hji
        rw [Function.update_same] at hj'
        exact absurd hj' (by simp)
      · rw [Function.update_noteq hji] at hj'
        exact h5 j hj'
    · intro j hj; rfl
  | resume i hpc hpub =>
    have hnum : numPreparing (Function.update s.pcs i CallerPC.done) =
        numPreparing s.pcs := by
      rw [numPreparing_update_eq s.pcs i CallerPC.done (by simp), hpc]
      simp
    refine ⟨h1, ?_, ?_, ?_, ?_, ?_⟩
    · show numPreparing (Function.update s.pcs i CallerPC.done) ≤ 1
      rw [hnum]; exact h2
    · show s.flight = true ↔
        (numPreparing (Function.update s.pcs i CallerPC.done) = 1 ∨
          s.published = true)
      rw [hnum]; exact h3
    · intro hp
      show numPreparing (Function.update s.pcs i CallerPC.done) = 0
      rw [hnum]; exact h4 hp
    · intro j hj
      have hj' : Function.update s.pcs i CallerPC.done j = CallerPC.waiting := hj
      by_cases hji : j = i
      · subst hji
        rw [Function.update_same] at hj'
        exact absurd hj' (by simp)
      · rw [Function.update_noteq hji] at hj'
        exact h5 j hj'
    · intro j hj
      exact hpub

theorem sfInv_reach {N : Nat} {s : SFState N} (h : SFReach s) : SFInv s := by
  induction h with
  | refl => exact sfInv_init N
  | tail _ hstep ih => exact sfInv_step ih hstep

/-- From any reachable, not-yet-finished state some caller can take a step:
the protocol never deadlocks. -/
theorem sf_progress {N : Nat} {s : SFState N} (hreach : SFReach s)
    (i : Fin N) (hi : s.pcs i ≠ CallerPC.done) : ∃ s', SFStep s s' := by
  classical
  have hinv := sfInv_reach hreach
  obtain ⟨h1, h2, h3, h4, h5, h6⟩ := hinv
  cases hpc : s.pcs i with
  | start =>
    cases hpub : s.published with
    | true => exact ⟨_, SFStep.hit s i hpc hpub⟩
    | false =>
      cases hfl : s.flight with
      | false => exact ⟨_, SFStep.claim s i hpc hpub hfl⟩
      | true => exact ⟨_, SFStep.wait s i hpc hpub hfl⟩
  | preparing => exact ⟨_, SFStep.publish s i hpc⟩
  | waiting =>
    cases hpub : s.published with
    | true => exact ⟨_, SFStep.resume s i hpc hpub⟩
    | false =>
      have hfl := h5 i hpc
      have hnum : numPreparing s.pcs = 1 := by
        rcases h3.mp hfl with h | h
        · exact h
        · rw [hpub] at h; exact Bool.noConfusion h
      have hpos : 0 < (Finset.univ.filter
          (fun j => s.pcs j = CallerPC.preparing)).card := by
        unfold numPreparing at hnum
        omega
      obtain ⟨j, hj⟩ := Finset.card_pos.mp hpos
      simp only [Finset.mem_filter] at hj
      exact ⟨_, SFStep.publish s j hj.2⟩
  | done => exact absurd hpc hi

/-! ## Graphs, fusion patterns, matcher and rewriter

Modelled from the spec (§3, §4.2, §4.3): the graph is an arena of operator
nodes in topological order, referring to values by integer id; the Matcher
performs a single forward scan attempting pattern anchors at each node, and a
pattern matches only when the claimed internal values are consumed exclusively
inside the pattern; the Rewriter replaces the matched nodes by one fused node
that reuses the final output value's identity, and discards the match if
attribute construction fails.

The pattern library is modelled with the two fusion families the spec
describes concretely: `linear → relu` fused to a linear-with-epilogue node,
and `quantize → linear → dequantize` fused to a quantized-linear node whose
attributes fold the quantization scale and zero-point (§4.5, §8). -/

/-- Modelled from the spec: operator types of graph nodes.  Scalar-valued
semantics over ℚ; attributes (weights, bias, quantization scale and
zero-point) are carried on the operator. -/
inductive Op where
  | linear (w b : ℚ)
  | relu
  | quantize (s : ℚ) (zp : ℤ)
  | dequantize (s : ℚ) (zp : ℤ)
  | fusedLinearRelu (w b : ℚ)
  | fusedQLinear (w b s1 : ℚ) (zp1 : ℤ) (s2 : ℚ) (zp2 : ℤ)
  deriving DecidableEq, Repr

/-- Whether an operator is one of the fused operators produced by rewriting. -/
def isFusedOp : Op → Bool
  | Op.fusedLinearRelu _ _ => true
  | Op.fusedQLinear _ _ _ _ _ _ => true
  | _ => false

/-- Modelled from the spec: a graph node — operator type, input value
reference, output value reference (§3 GraphNode; the modelled operators are
unary, matching the chain-shaped patterns of §4.2). -/
structure Node where
  op : Op
  inp : Nat
  out : Nat
  deriving DecidableEq, Repr

/-- Modelled from the spec: a graph — input value ids, output value ids, and
the node arena in topological order (§3 Graph, §9 arena-indexed DAG). -/
structure Graph where
  inputs : List Nat
  outputs : List Nat
  nodes : List Node
  deriving DecidableEq, Repr

/-- Value `v` is consumed exclusively by the in-pattern node `allowed`:
every consumer of `v` in the graph is `allowed`, and `v` is not a graph
output (an external use).  This is the Matcher's internal-value check
(§4.2). -/
def exclusiveInto (g : Graph) (v : Nat) (allowed : Node) : Bool :=
  decide ((∀ m ∈ g.nodes, m.inp = v → m = allowed) ∧ v ∉ g.outputs)

/-- Attribute construction for the fused linear-relu node; never fails. -/
def mkFusedLinearRelu (w b : ℚ) : Option Op :=
  some (Op.fusedLinearRelu w b)

/-- Modelled from the spec: attribute construction for the fused
quantized-linear node; folds both quantization parameter pairs into the fused
operator.  The fused kernel supports only positive scales, so a nonpositive
scale is the unsupported attribute combination that is detected only at this
stage and makes construction fail (§4.3). -/
def mkFusedQLinear (w b s1 : ℚ) (zp1 : ℤ) (s2 : ℚ) (zp2 : ℤ) : Option Op :=
  if 0 < s1 ∧ 0 < s2 then some (Op.fusedQLinear w b s1 zp1 s2 zp2) else none

/-- Modelled from the spec: attempt a pattern anchor at node `n`, with `rest`
the remaining nodes of the topological scan (§4.2).  On success, returns the
constructed fused node and how many nodes of `rest` the match consumed.
Longest patterns are anchored by distinct operator types, so the
leftmost-longest greedy policy is automatic.  Returns `none` when structural
matching, the exclusive-consumption check, or attribute construction fails. -/
def tryMatch (g : Graph) (n : Node) (rest : List Node) : Option (Node × Nat) :=
  match n.op with
  | Op.quantize s1 zp1 =>
    match rest with
    | n2 :: n3 :: _ =>
      match n2.op with
      | Op.linear w b =>
        match n3.op with
        | Op.dequantize s2 zp2 =>
          if n2.inp = n.out ∧ n3.inp = n2.out ∧
              exclusiveInto g n.out n2 = true ∧
              exclusiveInto g n2.out n3 = true then
            match mkFusedQLinear w b s1 zp1 s2 zp2 with
            | some op => some ({ op := op, inp := n.inp, out := n3.out }, 2)
            | none => none
          else none
        | _ => none
      | _ => none
    | _ => none
  | Op.linear w b =>
    match rest with
    | n2 :: _ =>
      if n2.op = Op.relu ∧ n2.inp = n.out ∧
          exclusiveInto g n.out n2 = true then
        match mkFusedLinearRelu w b with
        | some op => some ({ op := op, inp := n.inp, out := n2.out }, 1)
        | none => none
      else none
    | _ => none
  | _ => none

/-- Modelled from the spec: the single forward scan of the Matcher+Rewriter
(§4.2, §4.3).  At each node, attempt a pattern anchor; on a match, emit the
fused node and skip the consumed nodes; otherwise keep the node unchanged. -/
def fuseScan (g : Graph) : List Node → List Node
  | [] => []
  | n :: rest =>
    match tryMatch g n rest with
    | some (f, k) => f :: fuseScan g (rest.drop k)
    | none => n :: fuseScan g rest
termination_by ns => ns.length
decreasing_by
  all_goals simp_wf
  all_goals omega

/-- The nodes kept unchanged by the scan (parallel to `fuseScan`). -/
def keptNodes (g : Graph) : List Node → List Node
  | [] => []
  | n :: rest =>
    match tryMatch g n rest with
    | some (_, k) => keptNodes g (rest.drop k)
    | none => n :: keptNodes g rest
termination_by ns => ns.length
decreasing_by
  all_goals simp_wf
  all_goals omega

/-- The nodes consumed into matches by the scan (parallel to `fuseScan`). -/
def matchedNodes (g : Graph) : List Node → List Node
  | [] => []
  | n :: rest =>
    match tryMatch g n rest with
    | some (_, k) => (n :: rest.take k) ++ matchedNodes g (rest.drop k)
    | none => matchedNodes g rest
termination_by ns => ns.length
decreasing_by
  all_goals simp_wf
  all_goals omega

/-- Modelled from the spec: one Matcher+Rewriter pass over a graph — the
compile-time fusion step.  Pure and total: fusion-time failures are absorbed
by keeping the original nodes, never surfaced to the caller (§4.3, §7). -/
def runFusion (g : Graph) : Graph :=
  { g with nodes := fuseScan g g.nodes }

/-- Scalar semantics of each operator (§3, §4.5): `linear` is an affine map,
`relu` clamps at zero, `quantize`/`dequantize` use round-to-nearest with
scale and zero-point, and the fused operators implement the folded
arithmetic of the sequences they replace. -/
def opSem : Op → ℚ → ℚ
  | Op.linear w b, x => w * x + b
  | Op.relu, x => max 0 x
  | Op.quantize s zp, x => ((round (x / s) : ℤ) : ℚ) + (zp : ℚ)
  | Op.dequantize s zp, x => (x - (zp : ℚ)) * s
  | Op.fusedLinearRelu w b, x => max 0 (w * x + b)
  | Op.fusedQLinear w b s1 zp1 s2 zp2, x =>
      w * s2 * ((round (x / s1) : ℤ) : ℚ) +
        (w * (zp1 : ℚ) + b - (zp2 : ℚ)) * s2

/-- An environment assigns (optional) values to value ids. -/
def Env : Type := Nat → Option ℚ

/-- Execute one node: write the operator's result to the node's output value
(propagating absence if the input value is absent). -/
def evalNode (n : Node) (env : Env) : Env :=
  fun v => if v = n.out then (env n.inp).map (opSem n.op) else env v

/-- Execute a node list in order. -/
def evalNodes : List Node → Env → Env
  | [], env => env
  | n :: rest, env => evalNodes rest (evalNode n env)

/-- Execute a graph: run its nodes in topological order over an initial
environment (the graph's input values). -/
def evalGraph (g : Graph) (env : Env) : Env :=
  evalNodes g.nodes env

/-- Structural validity of a node list given the already-available value ids:
every node's input refers to an available value (no dangling references, and
acyclicity since a node can only read values produced strictly earlier), and
every node's output is fresh (each value produced by exactly one node). -/
def wfFrom (avail : List Nat) : List Node → Bool
  | [] => true
  | n :: rest =>
      decide (n.inp ∈ avail) && decide (n.out ∉ avail) &&
        wfFrom (n.out :: avail) rest

/-- The value ids available after executing a node list. -/
def availAfter (avail : List Nat) : List Node → List Nat
  | [] => avail
  | n :: rest => availAfter (n.out :: avail) rest

/-- Graph validity: the node arena is a valid DAG over the graph inputs with
no dangling value references, and every graph output refers to an existing
value (§3 Invariants). -/
def Graph.wf (g : Graph) : Bool :=
  wfFrom g.inputs g.nodes &&
    decide (∀ v ∈ g.outputs, v ∈ availAfter g.inputs g.nodes)

/-! ### Basic lemmas about the scan -/

theorem fuseScan_nil (g : Graph) : fuseScan g [] = [] := by
  rw [fuseScan]

theorem fuseScan_cons_some (g : Graph) (n : Node) (rest : List Node)
    (f : Node) (k : Nat) (h : tryMatch g n rest = some (f, k)) :
    fuseScan g (n :: rest) = f :: fuseScan g (rest.drop k) := by
  rw [fuseScan, h]

theorem fuseScan_cons_none (g : Graph) (n : Node) (rest : List Node)
    (h : tryMatch g n rest = none) :
    fuseScan g (n :: rest) = n :: fuseScan g rest := by
  rw [fuseScan, h]

theorem keptNodes_nil (g : Graph) : keptNodes g [] = [] := by
  rw [keptNodes]

theorem keptNodes_cons_some (g : Graph) (n : Node) (rest : List Node)
    (f : Node) (k : Nat) (h : tryMatch g n rest = some (f, k)) :
    keptNodes g (n :: rest) = keptNodes g (rest.drop k) := by
  rw [keptNodes, h]

theorem keptNodes_cons_none (g : Graph) (n : Node) (rest : List Node)
    (h : tryMatch g n rest = none) :
    keptNodes g (n :: rest) = n :: keptNodes g rest := by
  rw [keptNodes, h]

theorem matchedNodes_nil (g : Graph) : matchedNodes g [] = [] := by
  rw [matchedNodes]

theorem matchedNodes_cons_some (g : Graph) (n : Node) (rest : List Node)
    (f : Node) (k : Nat) (h : tryMatch g n rest = some (f, k)) :
    matchedNodes g (n :: rest) =
      (n :: rest.take k) ++ matchedNodes g (rest.drop k) := by
  rw [matchedNodes, h]

theorem matchedNodes_cons_none (g : Graph) (n : Node) (rest : List Node)
    (h : tryMatch g n rest = none) :
    matchedNodes g (n :: rest) = matchedNodes g rest := by
  conv_lhs => rw [matchedNodes]
  rw [h]

/-! ### The exclusive-consumption check -/

theorem exclusiveInto_spec {g : Graph} {v : Nat} {a : Node}
    (h : exclusiveInto g v a = true) :
    (∀ m ∈ g.nodes, m.inp = v → m = a) ∧ v ∉ g.outputs :=
  of_decide_eq_true h

theorem exclusiveInto_of_consumer {g : Graph} {v : Nat} {a m : Node}
    (hm : m ∈ g.nodes) (hinp : m.inp = v) (hne : m ≠ a) :
    exclusiveInto g v a = false := by
  cases hx : exclusiveInto g v a with
  | false => rfl
  | true => exact absurd ((exclusiveInto_spec hx).1 m hm hinp) hne

theorem exclusiveInto_of_output {g : Graph} {v : Nat} {a : Node}
    (hv : v ∈ g.outputs) : exclusiveInto g v a = false := by
  cases hx : exclusiveInto g v a with
  | false => rfl
  | true => exact absurd hv (exclusiveInto_spec hx).2

theorem exclusiveInto_false {g : Graph} {v : Nat} {a : Node}
    (h : exclusiveInto g v a = false) :
    (∃ m ∈ g.nodes, m.inp = v ∧ m ≠ a) ∨ v ∈ g.outputs := by
  have h' : ¬((∀ m ∈ g.nodes, m.inp = v → m = a) ∧ v ∉ g.outputs) :=
    of_decide_eq_false h
  by_cases hout : v ∈ g.outputs
  · exact Or.inr hout
  · refine Or.inl ?_
    by_contra hcon
    push_neg at hcon
    exact h' ⟨fun m hm hinp => hcon m hm hinp, hout⟩

/-! ### Characterizing successful and failing matches -/

theorem tryMatch_some {g : Graph} {n : Node} {rest : List Node} {f : Node}
    {k : Nat} (h : tryMatch g n rest = some (f, k)) :
    (∃ w b n2 rest2, rest = n2 :: rest2 ∧ n.op = Op.linear w b ∧
      n2.op = Op.relu ∧ n2.inp = n.out ∧ exclusiveInto g n.out n2 = true ∧
      f = { op := Op.fusedLinearRelu w b, inp := n.inp, out := n2.out } ∧
      k = 1) ∨
    (∃ s1 zp1 w b s2 zp2 n2 n3 rest3, rest = n2 :: n3 :: rest3 ∧
      n.op = Op.quantize s1 zp1 ∧ n2.op = Op.linear w b ∧
      n3.op = Op.dequantize s2 zp2 ∧ n2.inp = n.out ∧ n3.inp = n2.out ∧
      exclusiveInto g n.out n2 = true ∧ exclusiveInto g n2.out n3 = true ∧
      0 < s1 ∧ 0 < s2 ∧
      f = { op := Op.fusedQLinear w b s1 zp1 s2 zp2, inp := n.inp,
            out := n3.out } ∧ k = 2) := by
  unfold tryMatch at h
  cases hop : n.op with
  | quantize s1 zp1 =>
    rw [hop] at h
    dsimp only [] at h
    cases rest with
    | nil => simp at h
    | cons n2 rest' =>
      cases rest' with
      | nil => simp at h
      | cons n3 rest3 =>
        dsimp only [] at h
        cases hop2 : n2.op with
        | linear w b =>
          rw [hop2] at h
          dsimp only [] at h
          cases hop3 : n3.op with
          | dequantize s2 zp2 =>
            rw [hop3] at h
            dsimp only [] at h
            by_cases hc : n2.inp = n.out ∧ n3.inp = n2.out ∧
                exclusiveInto g n.out n2 = true ∧
                exclusiveInto g n2.out n3 = true
            · rw [if_pos hc] at h
              unfold mkFusedQLinear at h
              by_cases hs : (0 : ℚ) < s1 ∧ (0 : ℚ) < s2
              · rw [if_pos hs] at h
                dsimp only [] at h
                simp only [Option.some.injEq, Prod.mk.injEq] at h
                exact Or.inr ⟨s1, zp1, w, b, s2, zp2, n2, n3, rest3, rfl,
                  rfl, hop2, hop3, hc.1, hc.2.1, hc.2.2.1, hc.2.2.2,
                  hs.1, hs.2, h.1.symm, h.2.symm⟩
              · rw [if_neg hs] at h
                simp at h
            · rw [if_neg hc] at h
              simp at h
          | linear w' b' => rw [hop3] at h; simp at h
          | relu => rw [hop3] at h; simp at h
          | quantize s zp => rw [hop3] at h; simp at h
          | fusedLinearRelu w' b' => rw [hop3] at h; simp at h
          | fusedQLinear w' b' s1' zp1' s2' zp2' => rw [hop3] at h; simp at h
        | relu => rw [hop2] at h; simp at h
        | quantize s zp => rw [hop2] at h; simp at h
        | dequantize s zp => rw [hop2] at h; simp at h
        | fusedLinearRelu w' b' => rw [hop2] at h; simp at h
        | fusedQLinear w' b' s1' zp1' s2' zp2' => rw [hop2] at h; simp at h
  | linear w b =>
    rw [hop] at h
    dsimp only [] at h
    cases rest with
    | nil => simp at h
    | cons n2 rest2 =>
      dsimp only [] at h
      by_cases hc : n2.op = Op.relu ∧ n2.inp = n.out ∧
          exclusiveInto g n.out n2 = true
      · rw [if_pos hc] at h
        unfold mkFusedLinearRelu at h
        dsimp only [] at h
        simp only [Option.some.injEq, Prod.mk.injEq] at h
        exact Or.inl ⟨w, b, n2, rest2, rfl, rfl, hc.1, hc.2.1, hc.2.2,
          h.1.symm, h.2.symm⟩
      · rw [if_neg hc] at h
        simp at h
  | relu => rw [hop] at h; simp at h
  | dequantize s zp => rw [hop] at h; simp at h
  | fusedLinearRelu w b => rw [hop] at h; simp at h
  | fusedQLinear w b s1 zp1 s2 zp2 => rw [hop] at h; simp at h

theorem tryMatch_relu_anchor {g : Graph} {n : Node} {rest : List Node}
    (hop : n.op = Op.relu) : tryMatch g n rest = none := by
  unfold tryMatch
  rw [hop]

theorem tryMatch_dequantize_anchor {g : Graph} {n : Node} {rest : List Node}
    {s : ℚ} {zp : ℤ} (hop : n.op = Op.dequantize s zp) :
    tryMatch g n rest = none := by
  unfold tryMatch
  rw [hop]

theorem tryMatch_fused_anchor {g : Graph} {n : Node} {rest : List Node}
    (hop : isFusedOp n.op = true) : tryMatch g n rest = none := by
  unfold tryMatch
  cases h : n.op with
  | fusedLinearRelu w b => rfl
  | fusedQLinear w b s1 zp1 s2 zp2 => rfl
  | linear w b => simp [h, isFusedOp] at hop
  | relu => simp [h, isFusedOp] at hop
  | quantize s zp => simp [h, isFusedOp] at hop
  | dequantize s zp => simp [h, isFusedOp] at hop

theorem tryMatch_linrelu_none {g : Graph} {n n2 : Node} {rest2 : List Node}
    {w b : ℚ} (hop : n.op = Op.linear w b) (hop2 : n2.op = Op.relu)
    (hchain : n2.inp = n.out)
    (h : tryMatch g n (n2 :: rest2) = none) :
    exclusiveInto g n.out n2 = false := by
  cases hx : exclusiveInto g n.out n2 with
  | false => rfl
  | true =>
    exfalso
    unfold tryMatch at h
    rw [hop] at h
    dsimp only [] at h
    rw [if_pos ⟨hop2, hchain, hx⟩] at h
    unfold mkFusedLinearRelu at h
    simp at h

theorem tryMatch_qlin_none {g : Graph} {n n2 n3 : Node} {rest3 : List Node}
    {s1 : ℚ} {zp1 : ℤ} {w b s2 : ℚ} {zp2 : ℤ}
    (hop : n.op = Op.quantize s1 zp1) (hop2 : n2.op = Op.linear w b)
    (hop3 : n3.op = Op.dequantize s2 zp2)
    (hchain2 : n2.inp = n.out) (hchain3 : n3.inp = n2.out)
    (hs1 : 0 < s1) (hs2 : 0 < s2)
    (h : tryMatch g n (n2 :: n3 :: rest3) = none) :
    exclusiveInto g n.out n2 = false ∨ exclusiveInto g n2.out n3 = false := by
  cases hx1 : exclusiveInto g n.out n2 with
  | false => exact Or.inl rfl
  | true =>
    cases hx2 : exclusiveInto g n2.out n3 with
    | false => exact Or.inr rfl
    | true =>
      exfalso
      unfold tryMatch at h
      rw [hop] at h
      dsimp only [] at h
      rw [hop2] at h
      dsimp only [] at h
      rw [hop3] at h
      dsimp only [] at h
      rw [if_pos ⟨hchain2, hchain3, hx1, hx2⟩] at h
      unfold mkFusedQLinear at h
      rw [if_pos ⟨hs1, hs2⟩] at h
      simp at h

/-! ### Wellformedness lemmas -/

theorem wfFrom_cons {avail : List Nat} {n : Node} {rest : List Node} :
    wfFrom avail (n :: rest) = true ↔
      n.inp ∈ avail ∧ n.out ∉ avail ∧ wfFrom (n.out :: avail) rest = true := by
  simp [wfFrom, Bool.and_eq_true, and_assoc]

theorem wfFrom_out_not_avail {avail : List Nat} {ns : List Node}
    (h : wfFrom avail ns = true) : ∀ m ∈ ns, m.out ∉ avail := by
  induction ns generalizing avail with
  | nil => intro m hm; cases hm
  | cons n rest ih =>
    rw [wfFrom_cons] at h
    intro m hm
    rcases List.mem_cons.mp hm with hm' | hm'
    · rw [hm']; exact h.2.1
    · intro hmem
      exact ih h.2.2 m hm' (List.mem_cons_of_mem _ hmem)

theorem wfFrom_pairwise {avail : List Nat} {ns : List Node}
    (h : wfFrom avail ns = true) :
    ns.Pairwise (fun a b => a.out ≠ b.out) := by
  induction ns generalizing avail with
  | nil => exact List.Pairwise.nil
  | cons n rest ih =>
    rw [wfFrom_cons] at h
    refine List.Pairwise.cons ?_ (ih h.2.2)
    intro m hm heq
    exact wfFrom_out_not_avail h.2.2 m hm
      (by rw [← heq]; exact List.mem_cons_self _ _)

theorem wfFrom_transfer {ns : List Node} {a1 a2 : List Nat}
    (hsub : ∀ v, v ∈ a2 → v ∈ a1)
    (hinp : ∀ m ∈ ns, m.inp ∈ a1 → m.inp ∈ a2)
    (h : wfFrom a1 ns = true) : wfFrom a2 ns = true := by
  induction ns generalizing a1 a2 with
  | nil => rfl
  | cons n rest ih =>
    rw [wfFrom_cons] at h ⊢
    refine ⟨hinp n (List.mem_cons_self _ _) h.1,
      fun hmem => h.2.1 (hsub _ hmem), ?_⟩
    refine ih ?_ ?_ h.2.2
    · intro v hv
      rcases List.mem_cons.mp hv with hv' | hv'
      · rw [hv']; exact List.mem_cons_self _ _
      · exact List.mem_cons_of_mem _ (hsub v hv')
    · intro m hm hm1
      rcases List.mem_cons.mp hm1 with h1 | h1
      · rw [h1]; exact List.mem_cons_self _ _
      · exact List.mem_cons_of_mem _ (hinp m (List.mem_cons_of_mem _ hm) h1)

theorem availAfter_mem {ns : List Node} {avail : List Nat} {v : Nat} :
    v ∈ availAfter avail ns ↔ v ∈ avail ∨ ∃ m ∈ ns, m.out = v := by
  induction ns generalizing avail with
  | nil => simp [availAfter]
  | cons n rest ih =>
    rw [availAfter, ih]
    constructor
    · rintro (hv | hv)
      · rcases List.mem_cons.mp hv with hv' | hv'
        · exact Or.inr ⟨n, List.mem_cons_self _ _, hv'.symm⟩
        · exact Or.inl hv'
      · obtain ⟨m, hm, hout⟩ := hv
        exact Or.inr ⟨m, List.mem_cons_of_mem _ hm, hout⟩
    · rintro (hv | hv)
      · exact Or.inl (List.mem_cons_of_mem _ hv)
      · obtain ⟨m, hm, hout⟩ := hv
        rcases List.mem_cons.mp hm with hm' | hm'
        · refine Or.inl ?_
          rw [← hout, hm']
          exact List.mem_cons_self _ _
        · exact Or.inr ⟨m, hm', hout⟩

theorem nodup_of_pairwise_outs {ns : List Node}
    (h : ns.Pairwise (fun a b => a.out ≠ b.out)) : ns.Nodup :=
  h.imp (fun hne heq => hne (congrArg Node.out heq))

theorem out_inj_of_pairwise {ns : List Node}
    (h : ns.Pairwise (fun a b => a.out ≠ b.out))
    {x y : Node} (hx : x ∈ ns) (hy : y ∈ ns) (hout : x.out = y.out) :
    x = y := by
  by_contra hne
  have hsym : Symmetric (fun a b : Node => a.out ≠ b.out) := by
    intro a b hab heq
    exact hab heq.symm
  exact List.Pairwise.forall hsym h hx hy hne hout

/-! ### An induction principle following the scan -/

theorem scan_induction (g : Graph) (P : List Node → Prop)
    (h0 : P [])
    (hsome : ∀ n rest f k, tryMatch g n rest = some (f, k) →
      P (rest.drop k) → P (n :: rest))
    (hnone : ∀ n rest, tryMatch g n rest = none → P rest → P (n :: rest)) :
    ∀ ns, P ns := by
  have key : ∀ len ns, ns.length ≤ len → P ns := by
    intro len
    induction len with
    | zero =>
      intro ns hns
      rw [List.eq_nil_of_length_eq_zero (Nat.le_zero.mp hns)]
      exact h0
    | succ L ih =>
      intro ns hns
      cases ns with
      | nil => exact h0
      | cons n rest =>
        cases htm : tryMatch g n rest with
        | some fk =>
          obtain ⟨f, k⟩ := fk
          refine hsome n rest f k htm (ih _ ?_)
          have hd := List.length_drop k rest
          simp only [List.length_cons] at hns
          omega
        | none =>
          refine hnone n rest htm (ih _ ?_)
          simp only [List.length_cons] at hns
          omega
  exact fun (ns : List Node) => key ns.length ns le_rfl

/-! ### Decomposition of the scan into kept and matched nodes -/

theorem kept_sub_ns (g : Graph) :
    ∀ ns, ∀ m ∈ keptNodes g ns, m ∈ ns := by
  refine scan_induction g _ ?_ ?_ ?_
  · intro m hm
    rw [keptNodes_nil] at hm
    cases hm
  · intro n rest f k htm ih m hm
    rw [keptNodes_cons_some g n rest f k htm] at hm
    exact List.mem_cons_of_mem _ (List.drop_subset _ _ (ih m hm))
  · intro n rest htm ih m hm
    rw [keptNodes_cons_none g n rest htm] at hm
    rcases List.mem_cons.mp hm with hm' | hm'
    · rw [hm']; exact List.mem_cons_self _ _
    · exact List.mem_cons_of_mem _ (ih m hm')

theorem kept_sub_scan (g : Graph) :
    ∀ ns, ∀ m ∈ keptNodes g ns, m ∈ fuseScan g ns := by
  refine scan_induction g _ ?_ ?_ ?_
  · intro m hm
    rw [keptNodes_nil] at hm
    cases hm
  · intro n rest f k htm ih m hm
    rw [keptNodes_cons_some g n rest f k htm] at hm
    rw [fuseScan_cons_some g n rest f k htm]
    exact List.mem_cons_of_mem _ (ih m hm)
  · intro n rest htm ih m hm
    rw [keptNodes_cons_none g n rest htm] at hm
    rw [fuseScan_cons_none g n rest htm]
    rcases List.mem_cons.mp hm with hm' | hm'
    · rw [hm']; exact List.mem_cons_self _ _
    · exact List.mem_cons_of_mem _ (ih m hm')

theorem mem_scan_parts (g : Graph) :
    ∀ ns, ∀ m ∈ ns, m ∈ keptNodes g ns ∨ m ∈ matchedNodes g ns := by
  refine scan_induction g _ ?_ ?_ ?_
  · intro m hm; cases hm
  · intro n rest f k htm ih m hm
    rw [keptNodes_cons_some g n rest f k htm,
      matchedNodes_cons_some g n rest f k htm]
    rcases List.mem_cons.mp hm with hm' | hm'
    · refine Or.inr (List.mem_append_left _ ?_)
      rw [hm']
      exact List.mem_cons_self _ _
    · have hsplit : m ∈ rest.take k ++ rest.drop k := by
        rw [List.take_append_drop]; exact hm'
      rcases List.mem_append.mp hsplit with hm2 | hm2
      · exact Or.inr (List.mem_append_left _ (List.mem_cons_of_mem _ hm2))
      · rcases ih m hm2 with hk | hmt
        · exact Or.inl hk
        · exact Or.inr (List.mem_append_right _ hmt)
  · intro n rest htm ih m hm
    rw [keptNodes_cons_none g n rest htm, matchedNodes_cons_none g n rest htm]
    rcases List.mem_cons.mp hm with hm' | hm'
    · refine Or.inl ?_
      rw [hm']
      exact List.mem_cons_self _ _
    · rcases ih m hm' with hk | hmt
      · exact Or.inl (List.mem_cons_of_mem _ hk)
      · exact Or.inr hmt

theorem scan_classify (g : Graph) :
    ∀ ns, ∀ m ∈ fuseScan g ns,
      m ∈ keptNodes g ns ∨ isFusedOp m.op = true := by
  refine scan_induction g _ ?_ ?_ ?_
  · intro m hm
    rw [fuseScan_nil] at hm
    cases hm
  · intro n rest f k htm ih m hm
    rw [fuseScan_cons_some g n rest f k htm] at hm
    rw [keptNodes_cons_some g n rest f k htm]
    rcases List.mem_cons.mp hm with hm' | hm'
    · refine Or.inr ?_
      rw [hm']
      rcases tryMatch_some htm with hlin | hq
      · obtain ⟨w, b, n2, rest2, _, _, _, _, _, hf, _⟩ := hlin
        rw [hf]
        rfl
      · obtain ⟨s1, zp1, w, b, s2, zp2, n2, n3, rest3, _, _, _, _, _, _, _,
          _, _, _, hf, _⟩ := hq
        rw [hf]
        rfl
    · exact ih m hm'
  · intro n rest htm ih m hm
    rw [fuseScan_cons_none g n rest htm] at hm
    rw [keptNodes_cons_none g n rest htm]
    rcases List.mem_cons.mp hm with hm' | hm'
    · refine Or.inl ?_
      rw [hm']
      exact List.mem_cons_self _ _
    · rcases ih m hm' with hk | hf
      · exact Or.inl (List.mem_cons_of_mem _ hk)
      · exact Or.inr hf

theorem matched_structure (g : Graph) :
    ∀ ns, ∀ m ∈ matchedNodes g ns,
      ∃ h0 rest0 f k, tryMatch g h0 rest0 = some (f, k) ∧
        m ∈ h0 :: rest0.take k ∧ f ∈ fuseScan g ns ∧
        (∀ x ∈ h0 :: rest0.take k, x ∈ matchedNodes g ns) ∧
        (h0 :: rest0) <:+ ns := by
  refine scan_induction g _ ?_ ?_ ?_
  · intro m hm
    rw [matchedNodes_nil] at hm
    cases hm
  · intro n rest f k htm ih m hm
    rw [matchedNodes_cons_some g n rest f k htm] at hm
    rcases List.mem_append.mp hm with hm' | hm'
    · refine ⟨n, rest, f, k, htm, hm', ?_, ?_, List.suffix_refl _⟩
      · rw [fuseScan_cons_some g n rest f k htm]
        exact List.mem_cons_self _ _
      · intro x hx
        rw [matchedNodes_cons_some g n rest f k htm]
        exact List.mem_append_left _ hx
    · obtain ⟨h0, rest0, f0, k0, htm0, hmem, hfmem, hall, hsuf⟩ := ih m hm'
      refine ⟨h0, rest0, f0, k0, htm0, hmem, ?_, ?_, ?_⟩
      · rw [fuseScan_cons_some g n rest f k htm]
        exact List.mem_cons_of_mem _ hfmem
      · intro x hx
        rw [matchedNodes_cons_some g n rest f k htm]
        exact List.mem_append_right _ (hall x hx)
      · exact hsuf.trans ((List.drop_suffix k rest).trans (List.suffix_cons n rest))
  · intro n rest htm ih m hm
    rw [matchedNodes_cons_none g n rest htm] at hm
    obtain ⟨h0, rest0, f0, k0, htm0, hmem, hfmem, hall, hsuf⟩ := ih m hm
    refine ⟨h0, rest0, f0, k0, htm0, hmem, ?_, ?_, ?_⟩
    · rw [fuseScan_cons_none g n rest htm]
      exact List.mem_cons_of_mem _ hfmem
    · intro x hx
      rw [matchedNodes_cons_none g n rest htm]
      exact hall x hx
    · exact hsuf.trans (List.suffix_cons n rest)

theorem perm_parts (g : Graph) :
    ∀ ns : List Node, ns.Perm (matchedNodes g ns ++ keptNodes g ns) := by
  refine scan_induction g _ ?_ ?_ ?_
  · rw [matchedNodes_nil, keptNodes_nil]
    exact List.Perm.refl _
  · intro n rest f k htm ih
    rw [matchedNodes_cons_some g n rest f k htm,
      keptNodes_cons_some g n rest f k htm]
    have hsplit : n :: rest = (n :: rest.take k) ++ rest.drop k := by
      simp [List.take_append_drop]
    rw [hsplit, List.append_assoc]
    exact List.Perm.append_left _ ih
  · intro n rest htm ih
    rw [matchedNodes_cons_none g n rest htm, keptNodes_cons_none g n rest htm]
    exact (ih.cons n).trans List.perm_middle.symm

theorem kept_matched_disjoint (g : Graph) {ns : List Node} (hnd : ns.Nodup)
    {m : Node} (hk : m ∈ keptNodes g ns) (hm : m ∈ matchedNodes g ns) :
    False := by
  have hperm := perm_parts g ns
  have hnd2 : (matchedNodes g ns ++ keptNodes g ns).Nodup :=
    hperm.nodup_iff.mp hnd
  exact absurd hk (List.disjoint_of_nodup_append hnd2 hm)

/-! ### Reachable suffixes of the scan -/

/-- The suffixes of the node list visited by the Matcher's forward scan. -/
inductive ScanReach (g : Graph) : List Node → Prop where
  | init : ScanReach g g.nodes
  | keep {n : Node} {rest : List Node} : ScanReach g (n :: rest) →
      tryMatch g n rest = none → ScanReach g rest
  | fuse {n : Node} {rest : List Node} {f : Node} {k : Nat} :
      ScanReach g (n :: rest) → tryMatch g n rest = some (f, k) →
      ScanReach g (rest.drop k)

theorem scanReach_suffix {g : Graph} {ns : List Node} (h : ScanReach g ns) :
    ns <:+ g.nodes := by
  induction h with
  | init => exact List.suffix_refl _
  | keep _ _ ih => exact (List.suffix_cons _ _).trans ih
  | fuse _ _ ih => exact ((List.drop_suffix _ _).trans
      (List.suffix_cons _ _)).trans ih

theorem scanReach_kept_sub {g : Graph} {ns : List Node} (h : ScanReach g ns) :
    ∀ m ∈ keptNodes g ns, m ∈ keptNodes g g.nodes := by
  induction h with
  | init => exact fun m hm => hm
  | keep hr htm ih =>
    intro m hm
    refine ih m ?_
    rw [keptNodes_cons_none _ _ _ htm]
    exact List.mem_cons_of_mem _ hm
  | fuse hr htm ih =>
    intro m hm
    refine ih m ?_
    rw [keptNodes_cons_some _ _ _ _ _ htm]
    exact hm

/-! ### Semantics: the fused operators implement the folded arithmetic -/

theorem opSem_fusedLinearRelu (w b x : ℚ) :
    opSem (Op.fusedLinearRelu w b) x =
      opSem Op.relu (opSem (Op.linear w b) x) := rfl

theorem opSem_fusedQLinear (w b s1 : ℚ) (zp1 : ℤ) (s2 : ℚ) (zp2 : ℤ) (x : ℚ) :
    opSem (Op.fusedQLinear w b s1 zp1 s2 zp2) x =
      opSem (Op.dequantize s2 zp2)
        (opSem (Op.linear w b) (opSem (Op.quantize s1 zp1) x)) := by
  unfold opSem
  ring

theorem evalNode_out (n : Node) (env : Env) :
    evalNode n env n.out = (env n.inp).map (opSem n.op) := by
  unfold evalNode
  rw [if_pos rfl]

theorem evalNode_ne (n : Node) (env : Env) {v : Nat} (h : v ≠ n.out) :
    evalNode n env v = env v := by
  unfold evalNode
  rw [if_neg h]

theorem evalNodes_nil (env : Env) : evalNodes [] env = env := rfl

theorem evalNodes_cons (n : Node) (rest : List Node) (env : Env) :
    evalNodes (n :: rest) env = evalNodes rest (evalNode n env) := rfl

/-- A value id is dead for the remaining scan: no remaining node reads or
writes it and it is not a graph output.  Divergence between the original and
the rewritten execution is confined to dead values. -/
def DeadFor (g : Graph) (ns : List Node) (v : Nat) : Prop :=
  (∀ m ∈ ns, m.inp ≠ v ∧ m.out ≠ v) ∧ v ∉ g.outputs

theorem eval_agree (g : Graph)
    (hpair : g.nodes.Pairwise (fun a b => a.out ≠ b.out)) :
    ∀ ns : List Node, ns.Sublist g.nodes →
      ∀ env1 env2 : Env, (∀ v, env1 v ≠ env2 v → DeadFor g ns v) →
        ∀ v, evalNodes ns env1 v ≠ evalNodes (fuseScan g ns) env2 v →
          v ∉ g.outputs := by
  refine scan_induction g
    (fun ns => ns.Sublist g.nodes →
      ∀ env1 env2 : Env, (∀ v, env1 v ≠ env2 v → DeadFor g ns v) →
        ∀ v, evalNodes ns env1 v ≠ evalNodes (fuseScan g ns) env2 v →
          v ∉ g.outputs) ?_ ?_ ?_
  · intro _ env1 env2 hpre v hv
    rw [fuseScan_nil, evalNodes_nil, evalNodes_nil] at hv
    exact (hpre v hv).2
  · intro n rest f k htm ih hsub env1 env2 hpre v hv
    rw [fuseScan_cons_some g n rest f k htm] at hv
    rcases tryMatch_some htm with hlin | hq
    · -- linear → relu fused
      obtain ⟨w, b, n2, rest2, hrest, hopn, hopn2, hchain, hexcl, hf, hk⟩ :=
        hlin
      subst hrest
      subst hk
      have hdrop : (n2 :: rest2).drop 1 = rest2 := rfl
      rw [hdrop] at hv ih
      have hnpair : (n :: n2 :: rest2).Pairwise
          (fun a b => a.out ≠ b.out) := hpair.sublist hsub
      have hout12 : n.out ≠ n2.out := (List.pairwise_cons.mp hnpair).1 n2
        (List.mem_cons_self _ _)
      have hrest2n : ∀ m ∈ rest2, n.out ≠ m.out :=
        fun m hm => (List.pairwise_cons.mp hnpair).1 m
          (List.mem_cons_of_mem _ hm)
      have hrest2n2 : ∀ m ∈ rest2, n2.out ≠ m.out :=
        fun m hm => (List.pairwise_cons.mp
          (List.pairwise_cons.mp hnpair).2).1 m hm
      have hsub2 : rest2.Sublist g.nodes :=
        ((List.sublist_cons_self n2 rest2).trans
          (List.sublist_cons_self n (n2 :: rest2))).trans hsub
      have hmemn : n ∈ g.nodes := hsub.subset (List.mem_cons_self _ _)
      have hspec := exclusiveInto_spec hexcl
      have henv : env1 n.inp = env2 n.inp := by
        by_contra hne
        exact absurd rfl ((hpre _ hne).1 n (List.mem_cons_self _ _)).1
      rw [evalNodes_cons, evalNodes_cons, evalNodes_cons] at hv
      refine ih hsub2 _ _ ?_ v hv
      intro u hu
      by_cases hu2 : u = n2.out
      · exfalso
        refine hu ?_
        subst hu2
        have hfo : n2.out = f.out := by rw [hf]
        rw [evalNode_out]
        conv_rhs => rw [hfo, evalNode_out]
        rw [hchain, evalNode_out]
        rw [show f.inp = n.inp from by rw [hf], ← henv, Option.map_map]
        cases env1 n.inp with
        | none => rfl
        | some x =>
          simp only [Option.map_some', Function.comp_apply]
          rw [show f.op = Op.fusedLinearRelu w b from by rw [hf],
            opSem_fusedLinearRelu, hopn, hopn2]
      · by_cases hu1 : u = n.out
        · subst hu1
          refine ⟨?_, hspec.2⟩
          intro m hm
          refine ⟨?_, fun h => hrest2n m hm h.symm⟩
          intro hinp
          have hmg : m ∈ g.nodes := hsub2.subset hm
          have := hspec.1 m hmg hinp
          rw [this] at hm
          exact hrest2n2 n2 hm rfl
        · have he1 : evalNode n2 (evalNode n env1) u = env1 u := by
            rw [evalNode_ne _ _ hu2, evalNode_ne _ _ hu1]
          have he2 : evalNode f env2 u = env2 u := by
            rw [evalNode_ne]
            rw [hf]
            exact hu2
          rw [he1, he2] at hu
          have hd := hpre u hu
          exact ⟨fun m hm => hd.1 m (List.mem_cons_of_mem _
            (List.mem_cons_of_mem _ hm)), hd.2⟩
    · -- quantize → linear → dequantize fused
      obtain ⟨s1, zp1, w, b, s2, zp2, n2, n3, rest3, hrest, hopn, hopn2,
        hopn3, hchain2, hchain3, hexcl1, hexcl2, hs1, hs2, hf, hk⟩ := hq
      subst hrest
      subst hk
      have hdrop : (n2 :: n3 :: rest3).drop 2 = rest3 := rfl
      rw [hdrop] at hv ih
      have hnpair : (n :: n2 :: n3 :: rest3).Pairwise
          (fun a b => a.out ≠ b.out) := hpair.sublist hsub
      have hp1 := List.pairwise_cons.mp hnpair
      have hp2 := List.pairwise_cons.mp hp1.2
      have hp3 := List.pairwise_cons.mp hp2.2
      have hout12 : n.out ≠ n2.out := hp1.1 n2 (List.mem_cons_self _ _)
      have hout13 : n.out ≠ n3.out := hp1.1 n3
        (List.mem_cons_of_mem _ (List.mem_cons_self _ _))
      have hout23 : n2.out ≠ n3.out := hp2.1 n3 (List.mem_cons_self _ _)
      have hrest3n : ∀ m ∈ rest3, n.out ≠ m.out :=
        fun m hm => hp1.1 m (List.mem_cons_of_mem _
          (List.mem_cons_of_mem _ hm))
      have hrest3n2 : ∀ m ∈ rest3, n2.out ≠ m.out :=
        fun m hm => hp2.1 m (List.mem_cons_of_mem _ hm)
      have hrest3n3 : ∀ m ∈ rest3, n3.out ≠ m.out :=
        fun m hm => hp3.1 m hm
      have hsub3 : rest3.Sublist g.nodes :=
        (((List.sublist_cons_self n3 rest3).trans
          (List.sublist_cons_self n2 (n3 :: rest3))).trans
          (List.sublist_cons_self n (n2 :: n3 :: rest3))).trans hsub
      have hspec1 := exclusiveInto_spec hexcl1
      have hspec2 := exclusiveInto_spec hexcl2
      have henv : env1 n.inp = env2 n.inp := by
        by_contra hne
        exact absurd rfl ((hpre _ hne).1 n (List.mem_cons_self _ _)).1
      rw [evalNodes_cons, evalNodes_cons, evalNodes_cons,
        evalNodes_cons] at hv
      refine ih hsub3 _ _ ?_ v hv
      intro u hu
      by_cases hu3 : u = n3.out
      · exfalso
        refine hu ?_
        subst hu3
        have hfo : n3.out = f.out := by rw [hf]
        rw [evalNode_out]
        conv_rhs => rw [hfo, evalNode_out]
        rw [hchain3, evalNode_out, hchain2, evalNode_out]
        rw [show f.inp = n.inp from by rw [hf], ← henv, Option.map_map,
          Option.map_map]
        cases env1 n.inp with
        | none => rfl
        | some x =>
          simp only [Option.map_some', Function.comp_apply]
          rw [show f.op = Op.fusedQLinear w b s1 zp1 s2 zp2 from by rw [hf],
            opSem_fusedQLinear, hopn, hopn2, hopn3]
      · by_cases hu2 : u = n2.out
        · subst hu2
          refine ⟨?_, hspec2.2⟩
          intro m hm
          refine ⟨?_, fun h => hrest3n2 m hm h.symm⟩
          intro hinp
          have hmg : m ∈ g.nodes := hsub3.subset hm
          have := hspec2.1 m hmg hinp
          rw [this] at hm
          exact hrest3n3 n3 hm rfl
        · by_cases hu1 : u = n.out
          · subst hu1
            refine ⟨?_, hspec1.2⟩
            intro m hm
            refine ⟨?_, fun h => hrest3n m hm h.symm⟩
            intro hinp
            have hmg : m ∈ g.nodes := hsub3.subset hm
            have := hspec1.1 m hmg hinp
            rw [this] at hm
            exact hrest3n2 n2 hm rfl
          · have he1 : evalNode n3 (evalNode n2 (evalNode n env1)) u =
                env1 u := by
              rw [evalNode_ne _ _ hu3, evalNode_ne _ _ hu2,
                evalNode_ne _ _ hu1]
            have he2 : evalNode f env2 u = env2 u := by
              rw [evalNode_ne]
              rw [hf]
              exact hu3
            rw [he1, he2] at hu
            have hd := hpre u hu
            exact ⟨fun m hm => hd.1 m (List.mem_cons_of_mem _
              (List.mem_cons_of_mem _ (List.mem_cons_of_mem _ hm))), hd.2⟩
  · intro n rest htm ih hsub env1 env2 hpre v hv
    rw [fuseScan_cons_none g n rest htm] at hv
    rw [evalNodes_cons, evalNodes_cons] at hv
    have hsubr : rest.Sublist g.nodes :=
      (List.sublist_cons_self n rest).trans hsub
    refine ih hsubr _ _ ?_ v hv
    intro u hu
    by_cases hu1 : u = n.out
    · exfalso
      refine hu ?_
      subst hu1
      rw [evalNode_out, evalNode_out]
      have henv : env1 n.inp = env2 n.inp := by
        by_contra hne
        exact absurd rfl ((hpre _ hne).1 n (List.mem_cons_self _ _)).1
      rw [henv]
    · rw [evalNode_ne _ _ hu1, evalNode_ne _ _ hu1] at hu
      have hd := hpre u hu
      exact ⟨fun m hm => hd.1 m (List.mem_cons_of_mem _ hm), hd.2⟩

/-! ### The rewriter preserves graph validity -/

theorem wfFrom_fuseScan (g : Graph)
    (hpair : g.nodes.Pairwise (fun a b => a.out ≠ b.out)) :
    ∀ ns : List Node, ns.Sublist g.nodes →
      ∀ avail : List Nat, wfFrom avail ns = true →
        wfFrom avail (fuseScan g ns) = true := by
  refine scan_induction g
    (fun ns => ns.Sublist g.nodes →
      ∀ avail : List Nat, wfFrom avail ns = true →
        wfFrom avail (fuseScan g ns) = true) ?_ ?_ ?_
  · intro _ avail h
    rw [fuseScan_nil]
    exact h
  · intro n rest f k htm ih hsub avail h
    rw [fuseScan_cons_some g n rest f k htm]
    rcases tryMatch_some htm with hlin | hq
    · obtain ⟨w, b, n2, rest2, hrest, hopn, hopn2, hchain, hexcl, hfeq,
        hk1⟩ := hlin
      subst hrest
      subst hk1
      subst hfeq
      have hdrop : (n2 :: rest2).drop 1 = rest2 := rfl
      rw [hdrop] at ih ⊢
      rw [wfFrom_cons] at h
      obtain ⟨h1, h2, h3⟩ := h
      rw [wfFrom_cons] at h3
      obtain ⟨h31, h32, h33⟩ := h3
      have hnpair : (n :: n2 :: rest2).Pairwise
          (fun a b => a.out ≠ b.out) := hpair.sublist hsub
      have hrest2n2 : ∀ m ∈ rest2, n2.out ≠ m.out :=
        fun m hm => (List.pairwise_cons.mp
          (List.pairwise_cons.mp hnpair).2).1 m hm
      have hsub2 : rest2.Sublist g.nodes :=
        ((List.sublist_cons_self n2 rest2).trans
          (List.sublist_cons_self n (n2 :: rest2))).trans hsub
      have hspec := exclusiveInto_spec hexcl
      rw [wfFrom_cons]
      refine ⟨h1, fun hmem => h32 (List.mem_cons_of_mem _ hmem), ?_⟩
      refine ih hsub2 _ (wfFrom_transfer ?_ ?_ h33)
      · intro u hu
        rcases List.mem_cons.mp hu with hu' | hu'
        · rw [hu']; exact List.mem_cons_self _ _
        · exact List.mem_cons_of_mem _ (List.mem_cons_of_mem _ hu')
      · intro m hm hmi
        rcases List.mem_cons.mp hmi with hmi' | hmi'
        · rw [hmi']; exact List.mem_cons_self _ _
        · rcases List.mem_cons.mp hmi' with hmi2 | hmi2
          · exfalso
            have hmg : m ∈ g.nodes := hsub2.subset hm
            have := hspec.1 m hmg hmi2
            rw [this] at hm
            exact hrest2n2 n2 hm rfl
          · exact List.mem_cons_of_mem _ hmi2
    · obtain ⟨s1, zp1, w, b, s2, zp2, n2, n3, rest3, hrest, hopn, hopn2,
        hopn3, hchain2, hchain3, hexcl1, hexcl2, hs1, hs2, hfeq, hk2⟩ := hq
      subst hrest
      subst hk2
      subst hfeq
      have hdrop : (n2 :: n3 :: rest3).drop 2 = rest3 := rfl
      rw [hdrop] at ih ⊢
      rw [wfFrom_cons] at h
      obtain ⟨h1, h2, h3⟩ := h
      rw [wfFrom_cons] at h3
      obtain ⟨h31, h32, h33⟩ := h3
      rw [wfFrom_cons] at h33
      obtain ⟨h41, h42, h43⟩ := h33
      have hnpair : (n :: n2 :: n3 :: rest3).Pairwise
          (fun a b => a.out ≠ b.out) := hpair.sublist hsub
      have hp1 := List.pairwise_cons.mp hnpair
      have hp2 := List.pairwise_cons.mp hp1.2
      have hp3 := List.pairwise_cons.mp hp2.2
      have hrest3n2 : ∀ m ∈ rest3, n2.out ≠ m.out :=
        fun m hm => hp2.1 m (List.mem_cons_of_mem _ hm)
      have hrest3n3 : ∀ m ∈ rest3, n3.out ≠ m.out := fun m hm => hp3.1 m hm
      have hsub3 : rest3.Sublist g.nodes :=
        (((List.sublist_cons_self n3 rest3).trans
          (List.sublist_cons_self n2 (n3 :: rest3))).trans
          (List.sublist_cons_self n (n2 :: n3 :: rest3))).trans hsub
      have hspec1 := exclusiveInto_spec hexcl1
      have hspec2 := exclusiveInto_spec hexcl2
      rw [wfFrom_cons]
      refine ⟨h1, ?_, ?_⟩
      · intro hmem
        exact h42 (List.mem_cons_of_mem _ (List.mem_cons_of_mem _ hmem))
      · refine ih hsub3 _ (wfFrom_transfer ?_ ?_ h43)
        · intro u hu
          rcases List.mem_cons.mp hu with hu' | hu'
          · rw [hu']; exact List.mem_cons_self _ _
          · exact List.mem_cons_of_mem _ (List.mem_cons_of_mem _
              (List.mem_cons_of_mem _ hu'))
        · intro m hm hmi
          have hmg : m ∈ g.nodes := hsub3.subset hm
          rcases List.mem_cons.mp hmi with hmi' | hmi'
          · rw [hmi']; exact List.mem_cons_self _ _
          · rcases List.mem_cons.mp hmi' with hmi2 | hmi2
            · exfalso
              have := hspec2.1 m hmg hmi2
              rw [this] at hm
              exact hrest3n3 n3 hm rfl
            · rcases List.mem_cons.mp hmi2 with hmi3 | hmi3
              · exfalso
                have := hspec1.1 m hmg hmi3
                rw [this] at hm
                exact hrest3n2 n2 hm rfl
              · exact List.mem_cons_of_mem _ hmi3
  · intro n rest htm ih hsub avail h
    rw [fuseScan_cons_none g n rest htm]
    rw [wfFrom_cons] at h ⊢
    have hsubr : rest.Sublist g.nodes :=
      (List.sublist_cons_self n rest).trans hsub
    exact ⟨h.1, h.2.1, ih hsubr _ h.2.2⟩

/-- Every graph-output value produced by some node is still produced by a
node after fusion: the fused node reuses the final output value id, and
internal values are never graph outputs. -/
theorem out_preserved (g : Graph) {v : Nat} (hv : v ∈ g.outputs)
    {m : Node} (hm : m ∈ g.nodes) (hout : m.out = v) :
    ∃ m' ∈ fuseScan g g.nodes, m'.out = v := by
  rcases mem_scan_parts g g.nodes m hm with hk | hmt
  · exact ⟨m, kept_sub_scan g g.nodes m hk, hout⟩
  · obtain ⟨h0, rest0, f, k, htm, hmem, hfmem, hall, hsuf⟩ :=
      matched_structure g g.nodes m hmt
    rcases tryMatch_some htm with hlin | hq
    · obtain ⟨w, b, n2, rest2, hrest, hopn, hopn2, hchain, hexcl, hfeq,
        hk1⟩ := hlin
      subst hrest
      subst hk1
      subst hfeq
      have htake : (n2 :: rest2).take 1 = [n2] := rfl
      rw [htake] at hmem
      rcases List.mem_cons.mp hmem with hm' | hm'
      · exfalso
        rw [hm'] at hout
        exact (exclusiveInto_spec hexcl).2 (hout ▸ hv)
      · rcases List.mem_cons.mp hm' with hm2 | hm2
        · refine ⟨_, hfmem, ?_⟩
          show n2.out = v
          rw [hm2] at hout
          exact hout
        · cases hm2
    · obtain ⟨s1, zp1, w, b, s2, zp2, n2, n3, rest3, hrest, hopn, hopn2,
        hopn3, hchain2, hchain3, hexcl1, hexcl2, hs1, hs2, hfeq, hk2⟩ := hq
      subst hrest
      subst hk2
      subst hfeq
      have htake : (n2 :: n3 :: rest3).take 2 = [n2, n3] := rfl
      rw [htake] at hmem
      rcases List.mem_cons.mp hmem with hm' | hm'
      · exfalso
        rw [hm'] at hout
        exact (exclusiveInto_spec hexcl1).2 (hout ▸ hv)
      · rcases List.mem_cons.mp hm' with hm2 | hm2
        · exfalso
          rw [hm2] at hout
          exact (exclusiveInto_spec hexcl2).2 (hout ▸ hv)
        · rcases List.mem_cons.mp hm2 with hm3 | hm3
          · refine ⟨_, hfmem, ?_⟩
            show n3.out = v
            rw [hm3] at hout
            exact hout
          · cases hm3

/-! ### Consumers of surviving values survive the rewrite -/

/-- If a value `v` whose producer survives the scan has a consumer other than
`a` in the original graph, then the rewritten graph also has a consumer of `v`
other than `a` (the consumer either survives unchanged, or is the head of a
match whose fused node takes over the same input value). -/
theorem consumer_transfer (g : Graph)
    (hpair : g.nodes.Pairwise (fun a b => a.out ≠ b.out))
    {v : Nat} (hprod : ∀ p ∈ g.nodes, p.out = v → p ∈ keptNodes g g.nodes)
    {m : Node} (hm : m ∈ g.nodes) (hinp : m.inp = v)
    {a : Node} (hma : m ≠ a) (hanf : isFusedOp a.op = false) :
    ∃ m', m' ∈ fuseScan g g.nodes ∧ m'.inp = v ∧ m' ≠ a := by
  have hnd := nodup_of_pairwise_outs hpair
  rcases mem_scan_parts g g.nodes m hm with hk | hmt
  · exact ⟨m, kept_sub_scan g g.nodes m hk, hinp, hma⟩
  · obtain ⟨h0, rest0, f, k, htm, hmem, hfmem, hall, hsuf⟩ :=
      matched_structure g g.nodes m hmt
    have hsubl := hsuf.sublist
    rcases tryMatch_some htm with hlin | hq
    · obtain ⟨w, b, n2, rest2, hrest, hopn, hopn2, hchain, hexcl, hfeq,
        hk1⟩ := hlin
      subst hrest
      subst hk1
      subst hfeq
      have htake : (n2 :: rest2).take 1 = [n2] := rfl
      rw [htake] at hmem hall
      rcases List.mem_cons.mp hmem with hm' | hm'
      · refine ⟨_, hfmem, ?_, ?_⟩
        · show h0.inp = v
          rw [← hm']
          exact hinp
        · intro hfa
          rw [← hfa] at hanf
          simp [isFusedOp] at hanf
      · rcases List.mem_cons.mp hm' with hm2 | hm2
        · exfalso
          have hh0g : h0 ∈ g.nodes := hsubl.subset (List.mem_cons_self _ _)
          have h0out : h0.out = v := by
            rw [← hinp, hm2, hchain]
          have hkept := hprod h0 hh0g h0out
          have hmatched := hall h0 (List.mem_cons_self _ _)
          exact kept_matched_disjoint g hnd hkept hmatched
        · cases hm2
    · obtain ⟨s1, zp1, w, b, s2, zp2, n2, n3, rest3, hrest, hopn, hopn2,
        hopn3, hchain2, hchain3, hexcl1, hexcl2, hs1, hs2, hfeq, hk2⟩ := hq
      subst hrest
      subst hk2
      subst hfeq
      have htake : (n2 :: n3 :: rest3).take 2 = [n2, n3] := rfl
      rw [htake] at hmem hall
      rcases List.mem_cons.mp hmem with hm' | hm'
      · refine ⟨_, hfmem, ?_, ?_⟩
        · show h0.inp = v
          rw [← hm']
          exact hinp
        · intro hfa
          rw [← hfa] at hanf
          simp [isFusedOp] at hanf
      · rcases List.mem_cons.mp hm' with hm2 | hm2
        · exfalso
          have hh0g : h0 ∈ g.nodes := hsubl.subset (List.mem_cons_self _ _)
          have h0out : h0.out = v := by
            rw [← hinp, hm2, hchain2]
          have hkept := hprod h0 hh0g h0out
          have hmatched := hall h0 (List.mem_cons_self _ _)
          exact kept_matched_disjoint g hnd hkept hmatched
        · rcases List.mem_cons.mp hm2 with hm3 | hm3
          · exfalso
            have hn2g : n2 ∈ g.nodes := hsubl.subset
              (List.mem_cons_of_mem _ (List.mem_cons_self _ _))
            have hn2out : n2.out = v := by
              rw [← hinp, hm3, hchain3]
            have hkept := hprod n2 hn2g hn2out
            have hmatched := hall n2
              (List.mem_cons_of_mem _ (List.mem_cons_self _ _))
            exact kept_matched_disjoint g hnd hkept hmatched
          · cases hm3

/-! ### Idempotence of the Matcher+Rewriter pass -/

theorem runFusion_nodes (g : Graph) :
    (runFusion g).nodes = fuseScan g g.nodes := rfl

theorem runFusion_outputs (g : Graph) :
    (runFusion g).outputs = g.outputs := rfl

theorem runFusion_inputs (g : Graph) :
    (runFusion g).inputs = g.inputs := rfl

/-- A fused node produced by a successful match carries a fused operator. -/
theorem tryMatch_some_fused {g : Graph} {n : Node} {rest : List Node}
    {f : Node} {k : Nat} (h : tryMatch g n rest = some (f, k)) :
    isFusedOp f.op = true := by
  rcases tryMatch_some h with hlin | hq
  · obtain ⟨w, b, n2, rest2, _, _, _, _, _, hf, _⟩ := hlin
    rw [hf]
    rfl
  · obtain ⟨s1, zp1, w, b, s2, zp2, n2, n3, rest3, _, _, _, _, _, _, _, _,
      _, _, hf, _⟩ := hq
    rw [hf]
    rfl

/-- A node the first pass kept cannot anchor a match in the second pass: the
structural partner nodes are unchanged, the construction outcome is unchanged,
and any blocking external consumer is still present in the rewritten graph. -/
theorem idem_tryMatch_none (g : Graph)
    (hpair : g.nodes.Pairwise (fun a b => a.out ≠ b.out))
    {n : Node} {rest : List Node} (hreach : ScanReach g (n :: rest))
    (htm : tryMatch g n rest = none) :
    tryMatch (runFusion g) n (fuseScan g rest) = none := by
  have hnmem : n ∈ g.nodes :=
    (scanReach_suffix hreach).sublist.subset (List.mem_cons_self _ _)
  have hnkept : n ∈ keptNodes g g.nodes := by
    refine scanReach_kept_sub hreach n ?_
    rw [keptNodes_cons_none g n rest htm]
    exact List.mem_cons_self _ _
  have hprodn : ∀ p ∈ g.nodes, p.out = n.out → p ∈ keptNodes g g.nodes := by
    intro p hp hpo
    rw [out_inj_of_pairwise hpair hp hnmem hpo]
    exact hnkept
  cases htm2 : tryMatch (runFusion g) n (fuseScan g rest) with
  | none => rfl
  | some fk =>
    exfalso
    obtain ⟨f', k'⟩ := fk
    rcases tryMatch_some htm2 with hlin | hq
    · obtain ⟨w, b, r, rest2', hsc, hopn, hopr, hchain, hexcl, hfeq, hk1⟩ :=
        hlin
      cases rest with
      | nil =>
        rw [fuseScan_nil] at hsc
        exact List.noConfusion hsc
      | cons r1 rest2 =>
        cases h1 : tryMatch g r1 rest2 with
        | some fk1 =>
          obtain ⟨f1, k1⟩ := fk1
          rw [fuseScan_cons_some g r1 rest2 f1 k1 h1] at hsc
          injection hsc with hr hrest2
          have hfop := tryMatch_some_fused h1
          rw [hr, hopr] at hfop
          simp [isFusedOp] at hfop
        | none =>
          rw [fuseScan_cons_none g r1 rest2 h1] at hsc
          injection hsc with hr hrest2
          rw [← hr] at hopr hchain hexcl
          have hbad := tryMatch_linrelu_none hopn hopr hchain htm
          have hspec := exclusiveInto_spec hexcl
          rcases exclusiveInto_false hbad with ⟨mm, hmm, hmminp, hmmne⟩ | hout
          · have hanf : isFusedOp r1.op = false := by rw [hopr]; rfl
            obtain ⟨m', hm'scan, hm'inp, hm'ne⟩ :=
              consumer_transfer g hpair hprodn hmm hmminp hmmne hanf
            refine hm'ne (hspec.1 m' ?_ hm'inp)
            rw [runFusion_nodes]
            exact hm'scan
          · refine hspec.2 ?_
            rw [runFusion_outputs]
            exact hout
    · obtain ⟨s1, zp1, w, b, s2, zp2, r2, r3, rest3', hsc, hopn, hopr2,
        hopr3, hchain2, hchain3, hexcl1, hexcl2, hs1, hs2, hfeq, hk2⟩ := hq
      cases rest with
      | nil =>
        rw [fuseScan_nil] at hsc
        exact List.noConfusion hsc
      | cons r1 rest2 =>
        cases h1 : tryMatch g r1 rest2 with
        | some fk1 =>
          obtain ⟨f1, k1⟩ := fk1
          rw [fuseScan_cons_some g r1 rest2 f1 k1 h1] at hsc
          injection hsc with hr hrest2
          have hfop := tryMatch_some_fused h1
          rw [hr, hopr2] at hfop
          simp [isFusedOp] at hfop
        | none =>
          rw [fuseScan_cons_none g r1 rest2 h1] at hsc
          injection hsc with hr hrest2
          cases rest2 with
          | nil =>
            rw [fuseScan_nil] at hrest2
            exact List.noConfusion hrest2
          | cons q rest3 =>
            cases h2 : tryMatch g q rest3 with
            | some fk2 =>
              obtain ⟨f2, k2⟩ := fk2
              rw [fuseScan_cons_some g q rest3 f2 k2 h2] at hrest2
              injection hrest2 with hr3 hrest3
              have hfop := tryMatch_some_fused h2
              rw [hr3, hopr3] at hfop
              simp [isFusedOp] at hfop
            | none =>
              rw [fuseScan_cons_none g q rest3 h2] at hrest2
              injection hrest2 with hr3 hrest3
              rw [← hr] at hopr2 hchain2 hexcl1 hchain3
              rw [← hr3] at hopr3 hchain3 hexcl2
              rw [← hr] at hexcl2
              have hbad := tryMatch_qlin_none hopn hopr2 hopr3 hchain2
                hchain3 hs1 hs2 htm
              rcases hbad with hb1 | hb2
              · have hspec := exclusiveInto_spec hexcl1
                rcases exclusiveInto_false hb1 with
                  ⟨mm, hmm, hmminp, hmmne⟩ | hout
                · have hanf : isFusedOp r1.op = false := by rw [hopr2]; rfl
                  obtain ⟨m', hm'scan, hm'inp, hm'ne⟩ :=
                    consumer_transfer g hpair hprodn hmm hmminp hmmne hanf
                  refine hm'ne (hspec.1 m' ?_ hm'inp)
                  rw [runFusion_nodes]
                  exact hm'scan
                · refine hspec.2 ?_
                  rw [runFusion_outputs]
                  exact hout
              · have hreach2 : ScanReach g (r1 :: q :: rest3) :=
                  ScanReach.keep hreach htm
                have hr1mem : r1 ∈ g.nodes :=
                  (scanReach_suffix hreach2).sublist.subset
                    (List.mem_cons_self _ _)
                have hr1kept : r1 ∈ keptNodes g g.nodes := by
                  refine scanReach_kept_sub hreach2 r1 ?_
                  rw [keptNodes_cons_none g r1 (q :: rest3) h1]
                  exact List.mem_cons_self _ _
                have hprodr1 : ∀ p ∈ g.nodes, p.out = r1.out →
                    p ∈ keptNodes g g.nodes := by
                  intro p hp hpo
                  rw [out_inj_of_pairwise hpair hp hr1mem hpo]
                  exact hr1kept
                have hspec := exclusiveInto_spec hexcl2
                rcases exclusiveInto_false hb2 with
                  ⟨mm, hmm, hmminp, hmmne⟩ | hout
                · have hanf : isFusedOp q.op = false := by rw [hopr3]; rfl
                  obtain ⟨m', hm'scan, hm'inp, hm'ne⟩ :=
                    consumer_transfer g hpair hprodr1 hmm hmminp hmmne hanf
                  refine hm'ne (hspec.1 m' ?_ hm'inp)
                  rw [runFusion_nodes]
                  exact hm'scan
                · refine hspec.2 ?_
                  rw [runFusion_outputs]
                  exact hout

theorem fuseScan_idem (g : Graph)
    (hpair : g.nodes.Pairwise (fun a b => a.out ≠ b.out)) :
    ∀ ns : List Node, ScanReach g ns →
      fuseScan (runFusion g) (fuseScan g ns) = fuseScan g ns := by
  refine scan_induction g
    (fun ns => ScanReach g ns →
      fuseScan (runFusion g) (fuseScan g ns) = fuseScan g ns) ?_ ?_ ?_
  · intro _
    rw [fuseScan_nil, fuseScan_nil]
  · intro n rest f k htm ih hreach
    rw [fuseScan_cons_some g n rest f k htm]
    have hfnone : tryMatch (runFusion g) f (fuseScan g (rest.drop k)) =
        none := tryMatch_fused_anchor (tryMatch_some_fused htm)
    rw [fuseScan_cons_none _ _ _ hfnone]
    rw [ih (ScanReach.fuse hreach htm)]
  · intro n rest htm ih hreach
    rw [fuseScan_cons_none g n rest htm]
    have hnone := idem_tryMatch_none g hpair hreach htm
    rw [fuseScan_cons_none _ _ _ hnone]
    rw [ih (ScanReach.keep hreach htm)]

/-! ### Where each rewritten node comes from -/

/-- Every node of the rewritten list is either a kept original node or the
fused node of some match performed by the scan. -/
theorem scan_source (g : Graph) :
    ∀ ns, ∀ m ∈ fuseScan g ns,
      m ∈ keptNodes g ns ∨
        ∃ h0 rest0 k0, tryMatch g h0 rest0 = some (m, k0) ∧
          (h0 :: rest0) <:+ ns ∧
          (∀ x ∈ h0 :: rest0.take k0, x ∈ matchedNodes g ns) := by
  refine scan_induction g _ ?_ ?_ ?_
  · intro m hm
    rw [fuseScan_nil] at hm
    cases hm
  · intro n rest f k htm ih m hm
    rw [fuseScan_cons_some g n rest f k htm] at hm
    rw [keptNodes_cons_some g n rest f k htm]
    rcases List.mem_cons.mp hm with hm' | hm'
    · refine Or.inr ⟨n, rest, k, ?_, List.suffix_refl _, ?_⟩
      · rw [hm']
        exact htm
      · intro x hx
        rw [matchedNodes_cons_some g n rest f k htm]
        exact List.mem_append_left _ hx
    · rcases ih m hm' with hk | ⟨h0, rest0, k0, htm0, hsuf, hall⟩
      · exact Or.inl hk
      · refine Or.inr ⟨h0, rest0, k0, htm0, ?_, ?_⟩
        · exact hsuf.trans ((List.drop_suffix k rest).trans
            (List.suffix_cons n rest))
        · intro x hx
          rw [matchedNodes_cons_some g n rest f k htm]
          exact List.mem_append_right _ (hall x hx)
  · intro n rest htm ih m hm
    rw [fuseScan_cons_none g n rest htm] at hm
    rw [keptNodes_cons_none g n rest htm]
    rcases List.mem_cons.mp hm with hm' | hm'
    · refine Or.inl ?_
      rw [hm']
      exact List.mem_cons_self _ _
    · rcases ih m hm' with hk | ⟨h0, rest0, k0, htm0, hsuf, hall⟩
      · exact Or.inl (List.mem_cons_of_mem _ hk)
      · refine Or.inr ⟨h0, rest0, k0, htm0,
          hsuf.trans (List.suffix_cons n rest), ?_⟩
        intro x hx
        rw [matchedNodes_cons_none g n rest htm]
        exact hall x hx

theorem graph_wf_parts {g : Graph} (h : g.wf = true) :
    wfFrom g.inputs g.nodes = true ∧
      ∀ v ∈ g.outputs, v ∈ availAfter g.inputs g.nodes := by
  unfold Graph.wf at h
  rw [Bool.and_eq_true] at h
  exact ⟨h.1, of_decide_eq_true h.2⟩

/-! ## Example graphs used by the witnesses -/

/-- Quantize node of the example quantized-linear chain. -/
def nQ1 : Node := { op := Op.quantize 2 3, inp := 0, out := 1 }

/-- Linear node of the example quantized-linear chain. -/
def nQ2 : Node := { op := Op.linear 5 7, inp := 1, out := 2 }

/-- Dequantize node of the example quantized-linear chain. -/
def nQ3 : Node := { op := Op.dequantize 2 3, inp := 2, out := 3 }

/-- Example graph: a fusable quantize → linear → dequantize chain. -/
def exGraphQ : Graph :=
  { inputs := [0], outputs := [3], nodes := [nQ1, nQ2, nQ3] }

/-- The fused node the Matcher produces on `exGraphQ`. -/
def fQ : Node := { op := Op.fusedQLinear 5 7 2 3 2 3, inp := 0, out := 3 }

/-- Linear node of the external-consumer example. -/
def nE1 : Node := { op := Op.linear 2 0, inp := 0, out := 1 }

/-- Relu node of the external-consumer example. -/
def nE2 : Node := { op := Op.relu, inp := 1, out := 2 }

/-- The second, unrelated consumer of the linear's output. -/
def nE3 : Node := { op := Op.relu, inp := 1, out := 3 }

/-- Example graph: linear → relu where the linear's output also feeds a
second, unrelated node, so fusion must be rejected. -/
def exGraphExt : Graph :=
  { inputs := [0], outputs := [2, 3], nodes := [nE1, nE2, nE3] }

/-- Example graph: a quantize → linear → dequantize chain whose scale is
nonpositive, so fused-attribute construction fails. -/
def exGraphBad : Graph :=
  { inputs := [0], outputs := [3],
    nodes := [ { op := Op.quantize (-1) 0, inp := 0, out := 1 },
               { op := Op.linear 1 0, inp := 1, out := 2 },
               { op := Op.dequantize (-1) 0, inp := 2, out := 3 } ] }

/-- Example registry: one descriptor supporting dtype 0, layout 0, any
device capability up to 9. -/
def exDesc : KernelDescriptor :=
  { dtypes := [0], layouts := [0], devLo := 0, devHi := 9, entry := 11 }

/-- Example registry with the single descriptor `exDesc`. -/
def exReg : Registry := [exDesc]

/-- Example cache key covered by `exDesc`. -/
def exKeyA : CacheKey :=
  { shape := [2, 4], dtype := 0, layout := 0, device := 1, qscale := 1,
    qzeroPoint := 0 }

/-- A second cache key, differing from `exKeyA` in its quantization scale. -/
def exKeyB : CacheKey :=
  { shape := [2, 4], dtype := 0, layout := 0, device := 1, qscale := 2,
    qzeroPoint := 0 }

/-- A cache key covered by no registered descriptor (unsupported dtype). -/
def exKeyMiss : CacheKey :=
  { shape := [2, 4], dtype := 5, layout := 0, device := 1, qscale := 1,
    qzeroPoint := 0 }

/-! ## The claims -/

/-- C1: For every valid graph and every pattern of the library, rewriting a
graph whose matched subgraphs pass the internal-exclusivity check produces a
graph with numerically equal outputs for every input environment.  In this
model the fused kernels implement exactly the folded arithmetic of the
sequences they replace, so the outputs are exactly equal — on non-quantized
paths and on quantized paths alike, hence within any stated tolerance. -/
theorem fusion_rewrite_preserves_outputs (g : Graph) (hwf : g.wf = true)
    (env : Env) (v : Nat) (hv : v ∈ g.outputs) :
    evalGraph (runFusion g) env v = evalGraph g env v := by
  have hpair := wfFrom_pairwise (graph_wf_parts hwf).1
  by_contra hne
  exact absurd hv (eval_agree g hpair g.nodes (List.Sublist.refl _) env env
    (fun u hu => absurd rfl hu) v (fun heq => hne heq.symm))

theorem fusion_rewrite_preserves_outputs_witness :
    exGraphQ.wf = true ∧ 3 ∈ exGraphQ.outputs ∧
      evalGraph (runFusion exGraphQ) (fun v => if v = 0 then some 9 else none)
          3 =
        evalGraph exGraphQ (fun v => if v = 0 then some 9 else none) 3 :=
  ⟨by decide, by decide,
    fusion_rewrite_preserves_outputs exGraphQ (by decide)
      (fun v => if v = 0 then some 9 else none) 3 (by decide)⟩

/-- C2: two dispatcher calls with identical cache keys retrieve the same
cache entry, and two calls whose keys differ in any field never share a
cache entry. -/
theorem cache_key_correct (reg : Registry) (c1 c2 : Cache)
    (h1 : CacheWF reg c1) (h2 : CacheWF reg c2)
    (k1 k2 : CacheKey) (e1 e2 : CacheEntry) (c1' c2' : Cache)
    (hd1 : dispatch reg c1 k1 = Except.ok (e1, c1'))
    (hd2 : dispatch reg c2 k2 = Except.ok (e2, c2')) :
    (k1 = k2 → e1 = e2) ∧ (k1 ≠ k2 → e1 ≠ e2) := by
  have hr1 := dispatch_ok_resolve h1 hd1
  have hr2 := dispatch_ok_resolve h2 hd2
  constructor
  · intro hk
    rw [hk] at hr1
    exact Option.some.inj (hr1.symm.trans hr2)
  · intro hk hne
    exact hk (by rw [← resolve_key hr1, hne, resolve_key hr2])

theorem cache_key_correct_witness :
    (exKeyA = exKeyB → prepare exDesc exKeyA = prepare exDesc exKeyB) ∧
      (exKeyA ≠ exKeyB → prepare exDesc exKeyA ≠ prepare exDesc exKeyB) :=
  cache_key_correct exReg [] [] (cacheWF_nil _) (cacheWF_nil _)
    exKeyA exKeyB (prepare exDesc exKeyA) (prepare exDesc exKeyB)
    [(exKeyA, prepare exDesc exKeyA)] [(exKeyB, prepare exDesc exKeyB)]
    rfl rfl

/-- C3: in every interleaving of N ≥ 1 concurrent first-time calls on one
cache key, at most one preparation ever happens; when all callers have
finished exactly one preparation happened (the others reused it); and the
protocol never gets stuck before everyone finishes. -/
theorem single_flight_property (N : Nat) (hN : 1 ≤ N) (s : SFState N)
    (hreach : SFReach s) :
    s.prepCount ≤ 1 ∧
      ((∀ i, s.pcs i = CallerPC.done) → s.prepCount = 1) ∧
      ((∃ i, s.pcs i ≠ CallerPC.done) → ∃ s', SFStep s s') := by
  obtain ⟨h1, h2, h3, h4, h5, h6⟩ := sfInv_reach hreach
  refine ⟨?_, ?_, ?_⟩
  · rw [h1]
    cases s.published <;> simp
  · intro hall
    have hpub := h6 ⟨0, hN⟩ (hall ⟨0, hN⟩)
    rw [h1, hpub]
    simp
  · rintro ⟨i, hi⟩
    exact sf_progress hreach i hi

theorem single_flight_property_witness :
    (sfInit 1).prepCount ≤ 1 ∧
      ((∀ i, (sfInit 1).pcs i = CallerPC.done) → (sfInit 1).prepCount = 1) ∧
      ((∃ i, (sfInit 1).pcs i ≠ CallerPC.done) →
        ∃ s', SFStep (sfInit 1) s') :=
  single_flight_property 1 (by decide) (sfInit 1) Relation.ReflTransGen.refl

/-- C4: a dispatcher call fails with the recoverable unsupported-configuration
condition exactly when no registered descriptor's envelope covers the runtime
signature; in every other case it returns a kernel (dispatch is a total
function — never a crash). -/
theorem dispatch_unsupported_iff (reg : Registry) (c : Cache) (k : CacheKey)
    (hwf : CacheWF reg c) :
    dispatch reg c k =
        Except.error DispatchError.unsupportedConfiguration ↔
      ∀ d ∈ reg, covers d k = false := by
  constructor
  · intro herr
    unfold dispatch at herr
    cases hl : cacheLookup c k with
    | some e =>
      rw [hl] at herr
      exact absurd herr (by simp)
    | none =>
      rw [hl] at herr
      cases hr : resolve reg k with
      | some e =>
        rw [hr] at herr
        exact absurd herr (by simp)
      | none =>
        unfold resolve at hr
        cases hf : reg.find? (fun d => covers d k) with
        | some d =>
          rw [hf] at hr
          exact absurd hr (by simp)
        | none =>
          intro d hd
          have hnc := List.find?_eq_none.mp hf d hd
          cases hcv : covers d k with
          | false => rfl
          | true => exact absurd hcv hnc
  · intro hall
    have hf : reg.find? (fun d => covers d k) = none :=
      List.find?_eq_none.mpr (fun d hd => by rw [hall d hd]; simp)
    have hr : resolve reg k = none := by
      unfold resolve
      rw [hf]
      rfl
    have hl : cacheLookup c k = none := by
      cases hl2 : cacheLookup c k with
      | none => rfl
      | some e =>
        have := cacheLookup_wf hwf hl2
        rw [hr] at this
        exact Option.noConfusion this
    unfold dispatch
    rw [hl, hr]

theorem dispatch_unsupported_iff_witness :
    dispatch exReg [] exKeyMiss =
        Except.error DispatchError.unsupportedConfiguration ↔
      ∀ d ∈ exReg, covers d exKeyMiss = false :=
  dispatch_unsupported_iff exReg [] exKeyMiss (cacheWF_nil _)

/-- C5: rewriting is all-or-nothing per match.  When fused-attribute
construction fails (a nonpositive quantization scale), the structurally
matched quantize → linear → dequantize candidate is discarded, the three
original nodes pass through the scan unchanged and in place, and no error is
surfaced (the rewrite pass is a total graph-to-graph function). -/
theorem rewrite_all_or_nothing (g : Graph) (n r q : Node) (rest3 : List Node)
    (s1 : ℚ) (zp1 : ℤ) (w b s2 : ℚ) (zp2 : ℤ)
    (hop : n.op = Op.quantize s1 zp1) (hopr : r.op = Op.linear w b)
    (hopq : q.op = Op.dequantize s2 zp2)
    (hfail : ¬(0 < s1 ∧ 0 < s2)) :
    tryMatch g n (r :: q :: rest3) = none ∧
      fuseScan g (n :: r :: q :: rest3) =
        n :: r :: q :: fuseScan g rest3 := by
  have htm1 : tryMatch g n (r :: q :: rest3) = none := by
    unfold tryMatch
    rw [hop]
    dsimp only []
    rw [hopr]
    dsimp only []
    rw [hopq]
    dsimp only []
    by_cases hc : r.inp = n.out ∧ q.inp = r.out ∧
        exclusiveInto g n.out r = true ∧ exclusiveInto g r.out q = true
    · rw [if_pos hc]
      unfold mkFusedQLinear
      rw [if_neg hfail]
    · rw [if_neg hc]
  have htm2 : tryMatch g r (q :: rest3) = none := by
    unfold tryMatch
    rw [hopr]
    dsimp only []
    rw [if_neg]
    intro hcc
    rw [hopq] at hcc
    exact absurd hcc.1 (by simp)
  have htm3 : tryMatch g q rest3 = none := tryMatch_dequantize_anchor hopq
  refine ⟨htm1, ?_⟩
  rw [fuseScan_cons_none g n _ htm1, fuseScan_cons_none g r _ htm2,
    fuseScan_cons_none g q _ htm3]

theorem rewrite_all_or_nothing_witness :
    tryMatch exGraphBad { op := Op.quantize (-1) 0, inp := 0, out := 1 }
        [{ op := Op.linear 1 0, inp := 1, out := 2 },
         { op := Op.dequantize (-1) 0, inp := 2, out := 3 }] = none ∧
      fuseScan exGraphBad
          [{ op := Op.quantize (-1) 0, inp := 0, out := 1 },
           { op := Op.linear 1 0, inp := 1, out := 2 },
           { op := Op.dequantize (-1) 0, inp := 2, out := 3 }] =
        [{ op := Op.quantize (-1) 0, inp := 0, out := 1 },
         { op := Op.linear 1 0, inp := 1, out := 2 },
         { op := Op.dequantize (-1) 0, inp := 2, out := 3 }] := by
  have h := rewrite_all_or_nothing exGraphBad
    { op := Op.quantize (-1) 0, inp := 0, out := 1 }
    { op := Op.linear 1 0, inp := 1, out := 2 }
    { op := Op.dequantize (-1) 0, inp := 2, out := 3 } []
    (-1) 0 1 0 (-1) 0 rfl rfl rfl (by decide)
  refine ⟨h.1, ?_⟩
  rw [h.2, fuseScan_nil]

/-- C6: the Matcher accepts a match only when every internal value it claims
is consumed exclusively by nodes inside the match and is not a graph output;
and whenever the anchor is rejected, the scan keeps the anchor node
unchanged. -/
theorem matcher_internal_exclusivity (g : Graph) (n : Node)
    (rest : List Node) :
    (∀ f k, tryMatch g n rest = some (f, k) →
      ∀ x ∈ (n :: rest.take k).dropLast,
        (∀ m ∈ g.nodes, m.inp = x.out → m ∈ n :: rest.take k) ∧
          x.out ∉ g.outputs) ∧
    (tryMatch g n rest = none →
      fuseScan g (n :: rest) = n :: fuseScan g rest) := by
  constructor
  · intro f k h x hx
    rcases tryMatch_some h with hlin | hq
    · obtain ⟨w, b, n2, rest2, hrest, hopn, hopn2, hchain, hexcl, hfeq,
        hk1⟩ := hlin
      subst hrest
      subst hk1
      have htake : (n2 :: rest2).take 1 = [n2] := rfl
      rw [htake] at hx ⊢
      have hdl : (n :: [n2]).dropLast = [n] := rfl
      rw [hdl] at hx
      have hspec := exclusiveInto_spec hexcl
      rcases List.mem_cons.mp hx with hx' | hx'
      · subst hx'
        refine ⟨?_, hspec.2⟩
        intro m hm hinp
        rw [hspec.1 m hm hinp]
        exact List.mem_cons_of_mem _ (List.mem_cons_self _ _)
      · cases hx'
    · obtain ⟨s1, zp1, w, b, s2, zp2, n2, n3, rest3, hrest, hopn, hopn2,
        hopn3, hchain2, hchain3, hexcl1, hexcl2, hs1, hs2, hfeq, hk2⟩ := hq
      subst hrest
      subst hk2
      have htake : (n2 :: n3 :: rest3).take 2 = [n2, n3] := rfl
      rw [htake] at hx ⊢
      have hdl : (n :: [n2, n3]).dropLast = [n, n2] := rfl
      rw [hdl] at hx
      have hspec1 := exclusiveInto_spec hexcl1
      have hspec2 := exclusiveInto_spec hexcl2
      rcases List.mem_cons.mp hx with hx' | hx'
      · subst hx'
        refine ⟨?_, hspec1.2⟩
        intro m hm hinp
        rw [hspec1.1 m hm hinp]
        exact List.mem_cons_of_mem _ (List.mem_cons_self _ _)
      · rcases List.mem_cons.mp hx' with hx2 | hx2
        · subst hx2
          refine ⟨?_, hspec2.2⟩
          intro m hm hinp
          rw [hspec2.1 m hm hinp]
          exact List.mem_cons_of_mem _
            (List.mem_cons_of_mem _ (List.mem_cons_self _ _))
        · cases hx2
  · intro h
    exact fuseScan_cons_none g n rest h

theorem matcher_internal_exclusivity_witness :
    ((∀ m ∈ exGraphQ.nodes, m.inp = nQ1.out →
        m ∈ nQ1 :: [nQ2, nQ3].take 2) ∧ nQ1.out ∉ exGraphQ.outputs) ∧
      fuseScan exGraphExt (nE1 :: [nE2, nE3]) =
        nE1 :: fuseScan exGraphExt [nE2, nE3] :=
  ⟨(matcher_internal_exclusivity exGraphQ nQ1 [nQ2, nQ3]).1 fQ 2
      (by decide) nQ1 (by decide),
    (matcher_internal_exclusivity exGraphExt nE1 [nE2, nE3]).2 (by decide)⟩

/-- C7: fusion is idempotent — running the Matcher+Rewriter pass on an
already-rewritten valid graph produces no further structural change. -/
theorem fusion_idempotent (g : Graph) (hwf : g.wf = true) :
    runFusion (runFusion g) = runFusion g := by
  have hpair := wfFrom_pairwise (graph_wf_parts hwf).1
  show Graph.mk g.inputs g.outputs
      (fuseScan (runFusion g) (fuseScan g g.nodes)) =
    Graph.mk g.inputs g.outputs (fuseScan g g.nodes)
  rw [fuseScan_idem g hpair g.nodes ScanReach.init]

theorem fusion_idempotent_witness :
    exGraphQ.wf = true ∧
      runFusion (runFusion exGraphQ) = runFusion exGraphQ :=
  ⟨by decide, fusion_idempotent exGraphQ (by decide)⟩

/-- C8: rewriting a valid graph yields a valid graph — the node list remains
a DAG in topological order with every value reference (node inputs and graph
outputs) resolving to an existing value, and every value produced by exactly
one node. -/
theorem rewriter_preserves_validity (g : Graph) (hwf : g.wf = true) :
    (runFusion g).wf = true := by
  obtain ⟨h1, h2⟩ := graph_wf_parts hwf
  have hpair := wfFrom_pairwise h1
  unfold Graph.wf
  rw [Bool.and_eq_true]
  constructor
  · show wfFrom g.inputs (fuseScan g g.nodes) = true
    exact wfFrom_fuseScan g hpair g.nodes (List.Sublist.refl _) g.inputs h1
  · rw [decide_eq_true_eq]
    intro v hv
    have hv' : v ∈ g.outputs := hv
    have hv0 := h2 v hv'
    rw [availAfter_mem] at hv0
    show v ∈ availAfter g.inputs (fuseScan g g.nodes)
    rw [availAfter_mem]
    rcases hv0 with hin | ⟨m, hm, hout⟩
    · exact Or.inl hin
    · obtain ⟨m', hm', ho'⟩ := out_preserved g hv' hm hout
      exact Or.inr ⟨m', hm', ho'⟩

theorem rewriter_preserves_validity_witness :
    exGraphQ.wf = true ∧ (runFusion exGraphQ).wf = true :=
  ⟨by decide, rewriter_preserves_validity exGraphQ (by decide)⟩

/-- C9: frame property of a rewrite pass on a valid graph.  Graph inputs and
outputs are untouched; every node of the result is a fused node or an
original node kept identically; every original node either survives or was
part of a match (only matched nodes are removed); and every value that was
produced before but is produced by no node afterwards — a deleted value — is
fully unreferenced in the result: no surviving or fused node reads it and it
is not a graph output. -/
theorem rewrite_frame (g : Graph) (hwf : g.wf = true) :
    (runFusion g).inputs = g.inputs ∧
    (runFusion g).outputs = g.outputs ∧
    (∀ m ∈ (runFusion g).nodes, isFusedOp m.op = true ∨ m ∈ g.nodes) ∧
    (∀ m ∈ g.nodes,
      m ∈ (runFusion g).nodes ∨ m ∈ matchedNodes g g.nodes) ∧
    (∀ v, (∃ m ∈ g.nodes, m.out = v) →
      (∀ m' ∈ (runFusion g).nodes, m'.out ≠ v) →
      (∀ m' ∈ (runFusion g).nodes, m'.inp ≠ v) ∧ v ∉ g.outputs) := by
  have hpair := wfFrom_pairwise (graph_wf_parts hwf).1
  have hnd := nodup_of_pairwise_outs hpair
  refine ⟨rfl, rfl, ?_, ?_, ?_⟩
  · intro m hm
    rcases scan_classify g g.nodes m hm with hk | hf
    · exact Or.inr (kept_sub_ns g g.nodes m hk)
    · exact Or.inl hf
  · intro m hm
    rcases mem_scan_parts g g.nodes m hm with hk | hmt
    · exact Or.inl (kept_sub_scan g g.nodes m hk)
    · exact Or.inr hmt
  · rintro v ⟨m, hm, hout⟩ hgone
    rcases mem_scan_parts g g.nodes m hm with hk | hmt
    · exact absurd hout (hgone m (kept_sub_scan g g.nodes m hk))
    obtain ⟨h0, rest0, f, k, htm, hmem, hfmem, hall, hsuf⟩ :=
      matched_structure g g.nodes m hmt
    have hsubl := hsuf.sublist
    rcases tryMatch_some htm with hlin | hq
    · obtain ⟨w, b, n2, rest2, hrest, hopn, hopn2, hchain, hexcl, hfeq,
        hk1⟩ := hlin
      subst hrest
      subst hk1
      subst hfeq
      have htake : (n2 :: rest2).take 1 = [n2] := rfl
      rw [htake] at hmem hall
      have hspec := exclusiveInto_spec hexcl
      rcases List.mem_cons.mp hmem with hm1 | hm1
      · -- m is the head: v = h0.out is the internal value
        have hv : v = h0.out := by rw [← hout, hm1]
        subst hv
        refine ⟨?_, hspec.2⟩
        intro m' hm' hinp
        rcases scan_source g g.nodes m' hm' with hk' |
          ⟨h0', rest0', k0', htm0', hsuf', hall'⟩
        · have hm'g : m' ∈ g.nodes := kept_sub_ns g g.nodes m' hk'
          have heq := hspec.1 m' hm'g hinp
          rw [heq] at hk'
          exact kept_matched_disjoint g hnd hk'
            (hall n2 (List.mem_cons_of_mem _ (List.mem_cons_self _ _)))
        · have hh0'g : h0' ∈ g.nodes :=
            hsuf'.sublist.subset (List.mem_cons_self _ _)
          rcases tryMatch_some htm0' with hlin' | hq'
          · obtain ⟨w', b', r', rest2', _, hopn', _, _, _, hfeq', _⟩ := hlin'
            have hinp' : h0'.inp = h0.out := by
              rw [hfeq'] at hinp
              exact hinp
            have heq := hspec.1 h0' hh0'g hinp'
            rw [heq, hopn2] at hopn'
            exact Op.noConfusion hopn'
          · obtain ⟨s1', zp1', w', b', s2', zp2', _, _, _, _, hopn', _, _,
              _, _, _, _, _, _, hfeq', _⟩ := hq'
            have hinp' : h0'.inp = h0.out := by
              rw [hfeq'] at hinp
              exact hinp
            have heq := hspec.1 h0' hh0'g hinp'
            rw [heq, hopn2] at hopn'
            exact Op.noConfusion hopn'
      · -- m is the final node: its output value survives on the fused node
        rcases List.mem_cons.mp hm1 with hm2 | hm2
        · exfalso
          refine hgone _ hfmem ?_
          show n2.out = v
          rw [← hm2]
          exact hout
        · cases hm2
    · obtain ⟨s1, zp1, w, b, s2, zp2, n2, n3, rest3, hrest, hopn, hopn2,
        hopn3, hchain2, hchain3, hexcl1, hexcl2, hs1, hs2, hfeq, hk2⟩ := hq
      subst hrest
      subst hk2
      subst hfeq
      have htake : (n2 :: n3 :: rest3).take 2 = [n2, n3] := rfl
      rw [htake] at hmem hall
      have hspec1 := exclusiveInto_spec hexcl1
      have hspec2 := exclusiveInto_spec hexcl2
      have hn3g : n3 ∈ g.nodes := hsubl.subset (List.mem_cons_of_mem _
        (List.mem_cons_of_mem _ (List.mem_cons_self _ _)))
      rcases List.mem_cons.mp hmem with hm1 | hm1
      · -- m is the head: v = h0.out, internal value with consumer n2
        have hv : v = h0.out := by rw [← hout, hm1]
        subst hv
        refine ⟨?_, hspec1.2⟩
        intro m' hm' hinp
        rcases scan_source g g.nodes m' hm' with hk' |
          ⟨h0', rest0', k0', htm0', hsuf', hall'⟩
        · have hm'g : m' ∈ g.nodes := kept_sub_ns g g.nodes m' hk'
          have heq := hspec1.1 m' hm'g hinp
          rw [heq] at hk'
          exact kept_matched_disjoint g hnd hk'
            (hall n2 (List.mem_cons_of_mem _ (List.mem_cons_self _ _)))
        · have hh0'g : h0' ∈ g.nodes :=
            hsuf'.sublist.subset (List.mem_cons_self _ _)
          rcases tryMatch_some htm0' with hlin' | hq'
          · obtain ⟨w', b', r', rest2', hrest', hopn', hopr', hchain',
              hexcl', hfeq', _⟩ := hlin'
            have hinp' : h0'.inp = h0.out := by
              rw [hfeq'] at hinp
              exact hinp
            have heq := hspec1.1 h0' hh0'g hinp'
            -- h0' = n2 anchors linear→relu with partner r'; but n3 also
            -- consumes n2.out, so exclusivity forces n3 = r', and the
            -- operator types clash
            have hchain'' : r'.inp = n2.out := by
              rw [← heq]
              exact hchain'
            have hexcl'' : exclusiveInto g n2.out r' = true := by
              rw [← heq]
              exact hexcl'
            have := (exclusiveInto_spec hexcl'').1 n3 hn3g hchain3
            rw [this] at hopn3
            rw [hopr'] at hopn3
            exact Op.noConfusion hopn3
          · obtain ⟨s1', zp1', w', b', s2', zp2', _, _, _, _, hopn', _, _,
              _, _, _, _, _, _, hfeq', _⟩ := hq'
            have hinp' : h0'.inp = h0.out := by
              rw [hfeq'] at hinp
              exact hinp
            have heq := hspec1.1 h0' hh0'g hinp'
            rw [heq, hopn2] at hopn'
            exact Op.noConfusion hopn'
      · rcases List.mem_cons.mp hm1 with hm2 | hm2
        · -- m = n2: v = n2.out, internal value with consumer n3
          have hv : v = n2.out := by rw [← hout, hm2]
          subst hv
          refine ⟨?_, hspec2.2⟩
          intro m' hm' hinp
          rcases scan_source g g.nodes m' hm' with hk' |
            ⟨h0', rest0', k0', htm0', hsuf', hall'⟩
          · have hm'g : m' ∈ g.nodes := kept_sub_ns g g.nodes m' hk'
            have heq := hspec2.1 m' hm'g hinp
            rw [heq] at hk'
            exact kept_matched_disjoint g hnd hk'
              (hall n3 (List.mem_cons_of_mem _ (List.mem_cons_of_mem _
                (List.mem_cons_self _ _))))
          · have hh0'g : h0' ∈ g.nodes :=
              hsuf'.sublist.subset (List.mem_cons_self _ _)
            rcases tryMatch_some htm0' with hlin' | hq'
            · obtain ⟨w', b', r', rest2', _, hopn', _, _, _, hfeq', _⟩ :=
                hlin'
              have hinp' : h0'.inp = n2.out := by
                rw [hfeq'] at hinp
                exact hinp
              have heq := hspec2.1 h0' hh0'g hinp'
              rw [heq, hopn3] at hopn'
              exact Op.noConfusion hopn'
            · obtain ⟨s1', zp1', w', b', s2', zp2', _, _, _, _, hopn', _, _,
                _, _, _, _, _, _, hfeq', _⟩ := hq'
              have hinp' : h0'.inp = n2.out := by
                rw [hfeq'] at hinp
                exact hinp
              have heq := hspec2.1 h0' hh0'g hinp'
              rw [heq, hopn3] at hopn'
              exact Op.noConfusion hopn'
        · rcases List.mem_cons.mp hm2 with hm3 | hm3
          · -- m = n3: its output value survives on the fused node
            exfalso
            refine hgone _ hfmem ?_
            show n3.out = v
            rw [← hm3]
            exact hout
          · cases hm3

theorem rewrite_frame_witness :
    exGraphQ.wf = true ∧
      ((runFusion exGraphQ).inputs = exGraphQ.inputs ∧
        (runFusion exGraphQ).outputs = exGraphQ.outputs ∧
        (∀ m ∈ (runFusion exGraphQ).nodes,
          isFusedOp m.op = true ∨ m ∈ exGraphQ.nodes) ∧
        (∀ m ∈ exGraphQ.nodes, m ∈ (runFusion exGraphQ).nodes ∨
          m ∈ matchedNodes exGraphQ exGraphQ.nodes) ∧
        (∀ v, (∃ m ∈ exGraphQ.nodes, m.out = v) →
          (∀ m' ∈ (runFusion exGraphQ).nodes, m'.out ≠ v) →
          (∀ m' ∈ (runFusion exGraphQ).nodes, m'.inp ≠ v) ∧
            v ∉ exGraphQ.outputs)) :=
  ⟨by decide, rewrite_frame exGraphQ (by decide)⟩

/-- C10: at process load, the `TORCH_LIBRARY(sfast, m)` block registers
exactly four kernel-provider groups — cuDNN convolution, cuDNN quantized
linear, cuBLAS GEMM, and fused linear — each initializer invoked exactly
once, in that fixed source order, so the provider registration sequence is a
constant and therefore deterministic across runs. -/
theorem registration_block_exact :
    torchLibrarySfast.length = 4 ∧
      (∀ p : ProviderGroup, torchLibrarySfast.count p = 1) ∧
      torchLibrarySfast =
        [ProviderGroup.cudnnConvolution, ProviderGroup.cudnnQLinear,
         ProviderGroup.cublasGemm, ProviderGroup.fusedLinear] := by
  refine ⟨rfl, ?_, rfl⟩
  intro p
  cases p <;> rfl

end SFast
